import Mathlib

/-!
Verification of the binary cookies codec (`bincookies.py`).

The byte buffers handled by the Python module are modelled as `List Nat`
(one entry per byte; genuine buffers have every entry `< 256`).  Decoders
are translated as computable functions returning `Except Err _` where the
Python raises exceptions; the explicit read-cursor threading of the source
(`value, pos = f(data, pos)`) becomes returning a `value × Nat` pair.

Timestamps: the source stores timestamps as 8-byte little-endian IEEE-754
doubles (`struct.pack('<d', sec)` / `struct.unpack('<d', raw)`), wraps the
decoded seconds into `datetime.datetime.fromtimestamp(sec + mac_abs_epoch)`
on decode, and on encode converts a `datetime` back through
`time.mktime(dt.timetuple()) - mac_abs_epoch` (or a number through
`dt - mac_abs_epoch`).  This development models that layer in full:

* IEEE-754 binary64 is modelled exactly — `dblVal` gives the exact
  rational value of a finite 64-bit pattern, and `roundDbl` rounds an
  exact rational to the nearest representable double (ties to even,
  with subnormals and overflow to infinity), so a float operation
  `a ⊕ b` is modelled as `roundDbl (exact result)`, which is the IEEE
  definition of the operation;
* a decoded timestamp is a `datetime` value, modelled by `Timestamp.dt μ`
  — the instant `μ` microseconds from the Unix epoch — since `datetime`
  carries microsecond resolution; `fromtimestamp` (modelled by `mkDtime`)
  rounds the seconds value to microseconds and raises for NaN, infinities
  and out-of-range values (the precise boundary of "out of range" and the
  sub-microsecond rounding direction are platform- and version-dependent
  in CPython; the model fixes the boundary at `datetime`'s year range in
  UTC and rounds half up, and every theorem below keeps a margin of more
  than two days from the boundary and never depends on a half-microsecond
  tie);
* `u_dstamp` on a `datetime` models `time.mktime(dt.timetuple())`, which
  drops the microseconds (`timetuple` has only whole seconds), i.e. it
  floors the instant to a whole second before the epoch shift — the
  encode direction is lossy exactly where the program is.

The value-level epoch shift (`sec + mac_abs_epoch` / `dt - mac_abs_epoch`)
is additionally exposed on exact rationals as `dstampShift` and
`u_dstampShift`.
-/

/-- The error taxonomy of the codec.  The Python source raises a single
exception class `error` with a formatted message; this model tracks the
distinct failure kinds instead of message strings.  `sentinelViolation` is
the failure the source *intends* at `phead`'s sentinel check; the code as
written instead raises a Python `NameError` there (modelled by
`nameErrorUndefined`), because the message expression interpolates the
undefined name `ck`.  `embeddedNul` models the `ValueError` raised by
`u_zstr` on a string containing a NUL byte.  `valueErrorTimestamp` models
the `ValueError`/`OverflowError` family raised by
`datetime.datetime.fromtimestamp` on NaN, infinite or out-of-range
seconds values. -/
inductive Err where
  | outOfInput
  | fileMagicMismatch
  | counterTooLarge
  | pageMagicMismatch
  | sentinelViolation
  | nameErrorUndefined
  | sizeMismatch
  | incompleteParse
  | embeddedNul
  | valueErrorTimestamp
deriving DecidableEq

deriving instance DecidableEq for Except

set_option exponentiation.threshold 2000
set_option maxRecDepth 10000

attribute [local semireducible] Rat.add Rat.mul Rat.sub Rat.inv

/-- `mac_abs_epoch = 978336000`, the offset of Apple's absolute epoch
(01-Jan-2001 00:00:00 UTC) relative to the Unix epoch, in seconds, used in
exact rational arithmetic for the timestamp shift model. -/
def mac_abs_epoch : ℚ := 978336000

/-- `FILE_MAGIC = 'cook'`, as a byte list. -/
def FILE_MAGIC : List Nat := [99, 111, 111, 107]

/-- `PAGE_MAGIC = 256`. -/
def PAGE_MAGIC : Nat := 256

/-- `bytes(data, pos, n)`: exactly `n` bytes from position `pos`, failing
with "out of input" when `pos + n > len(data)`; also returns the advanced
cursor. -/
def bytes (data : List Nat) (pos n : Nat) : Except Err (List Nat × Nat) :=
  if data.length < pos + n then .error .outOfInput
  else .ok ((data.drop pos).take n, pos + n)

/-- Value of a byte list read as a little-endian unsigned integer
(`struct.unpack('<I')` / `('<d')` payload order). -/
def fromLE (bs : List Nat) : Nat :=
  bs.foldr (fun b acc => b + 256 * acc) 0

/-- Value of a byte list read as a big-endian (network order) unsigned
integer (`struct.unpack('>I')`). -/
def fromBE (bs : List Nat) : Nat :=
  bs.foldl (fun acc b => 256 * acc + b) 0

/-- `lsize(data, pos)`: a 4-byte unsigned integer in little-endian order. -/
def lsize (data : List Nat) (pos : Nat) : Except Err (Nat × Nat) :=
  match bytes data pos 4 with
  | .error e => .error e
  | .ok (v, p) => .ok (fromLE v, p)

/-- `bsize(data, pos)`: a 4-byte unsigned integer in network byte order. -/
def bsize (data : List Nat) (pos : Nat) : Except Err (Nat × Nat) :=
  match bytes data pos 4 with
  | .error e => .error e
  | .ok (v, p) => .ok (fromBE v, p)

/-- `u_lsize(v)`: the 4 little-endian bytes of `v` (`struct.pack('<I', v)`;
the source's negative-value check cannot fire for a `Nat`). -/
def u_lsize (v : Nat) : List Nat :=
  [v % 256, v / 256 % 256, v / 256 ^ 2 % 256, v / 256 ^ 3 % 256]

/-- `u_bsize(v)`: the 4 network-order bytes of `v` (`struct.pack('>I', v)`). -/
def u_bsize (v : Nat) : List Nat :=
  [v / 256 ^ 3 % 256, v / 256 ^ 2 % 256, v / 256 % 256, v % 256]

/-- Integer powers of two as exact rationals. -/
def pow2 (z : ℤ) : ℚ :=
  if 0 ≤ z then ((2 ^ z.toNat : ℕ) : ℚ) else 1 / ((2 ^ (-z).toNat : ℕ) : ℚ)

/-- Fuelled base-2 logarithm on `ℕ` (`natLog2 fuel n = ⌊log2 n⌋` for
`1 ≤ n < 2 ^ fuel`); structural recursion on the fuel so that it reduces
in the kernel. -/
def natLog2 (fuel : Nat) (n : Nat) : Nat :=
  match fuel with
  | 0 => 0
  | f + 1 => if n < 2 then 0 else natLog2 f (n / 2) + 1

/-- `⌊log2 a⌋` of a positive rational.  The fuel 2000 covers every value
that can arise from 64-bit doubles (numerators and denominators stay far
below `2 ^ 2000`). -/
def findExp (a : ℚ) : ℤ :=
  let e0 : ℤ := (natLog2 2000 a.num.natAbs : ℤ) - (natLog2 2000 a.den : ℤ)
  if a < pow2 e0 then e0 - 1 else if pow2 (e0 + 1) ≤ a then e0 + 1 else e0

/-- The 63-bit magnitude part (exponent and significand fields) of the
IEEE-754 binary64 nearest to a positive rational `a`: round to nearest,
ties to even, subnormals below `2 ^ (-1022)`, overflow to the infinity
pattern. -/
def roundMag (a : ℚ) : Nat :=
  let e : ℤ := max (findExp a) (-1022)
  let n : ℚ := a * pow2 (52 - e)
  let f : ℤ := ⌊n⌋
  let m : ℤ :=
    if n - (f : ℚ) < 1 / 2 then f
    else if (1 : ℚ) / 2 < n - (f : ℚ) then f + 1
    else if f % 2 = 0 then f else f + 1
  if m < 2 ^ 52 then m.toNat
  else if m < 2 ^ 53 then
    if 1023 < e then 2047 * 2 ^ 52
    else (e + 1023).toNat * 2 ^ 52 + (m - 2 ^ 52).toNat
  else
    if 1022 < e then 2047 * 2 ^ 52
    else (e + 1024).toNat * 2 ^ 52

/-- The 64-bit pattern of the IEEE-754 binary64 nearest to an exact
rational (round to nearest, ties to even).  A float operation `a ⊕ b` is
`roundDbl` of the exact result, which is the IEEE definition. -/
def roundDbl (q : ℚ) : Nat :=
  if q = 0 then 0 else (if q < 0 then 2 ^ 63 else 0) + roundMag |q|

/-- The exact rational value of a finite binary64 bit pattern (for NaN or
infinity patterns the result is meaningless; callers check `isFiniteDbl`
first, as the source's `fromtimestamp` raises on them). -/
def dblVal (p : Nat) : ℚ :=
  let s : Nat := p / 2 ^ 63
  let E : Nat := p / 2 ^ 52 % 2 ^ 11
  let m : Nat := p % 2 ^ 52
  let mag : ℚ :=
    if E = 0 then (m : ℚ) * pow2 (-1074)
    else ((2 ^ 52 + m : ℕ) : ℚ) * pow2 ((E : ℤ) - 1075)
  if s = 1 then -mag else mag

/-- Whether a 64-bit pattern is a finite double (exponent field not all
ones). -/
def isFiniteDbl (p : Nat) : Bool := p / 2 ^ 52 % 2 ^ 11 != 2047

/-- The smallest epoch-seconds value representable by `datetime`
(0001-01-01T00:00:00, taken in UTC; the local-time boundary used by
`fromtimestamp` differs by at most hours, and no theorem below goes within
two days of it). -/
def dtMinEpoch : ℚ := -62135596800

/-- One past the largest epoch-seconds value representable by `datetime`
(10000-01-01T00:00:00, taken in UTC; same caveat as `dtMinEpoch`). -/
def dtMaxEpoch : ℚ := 253402300800

/-- A value stored in a cookie's timestamp fields.  `dt μ` models the
`datetime.datetime` at the instant `μ` microseconds from the Unix epoch
(a `datetime` has microsecond resolution; decode only ever produces
these).  `num q` models a Python `int`/`float` timestamp of `q` seconds
(accepted by `u_dstamp`'s `isinstance (dt, (int, float))` branch; for `q`
an exactly representable double the model is bit-for-bit Python). -/
inductive Timestamp where
  | dt (micros : Int)
  | num (seconds : ℚ)
deriving DecidableEq

/-- `datetime.datetime.fromtimestamp(dblVal p + mac_abs_epoch)` on the
stored seconds pattern `p`: the float addition is the rounded exact sum;
NaN, infinities and out-of-range values raise; otherwise the result is
the `datetime` at that instant, rounded to microsecond resolution. -/
def mkDtime (p : Nat) : Except Err Timestamp :=
  if isFiniteDbl p = false then .error .valueErrorTimestamp
  else
    let x : ℚ := dblVal (roundDbl (dblVal p + mac_abs_epoch))
    if x < dtMinEpoch ∨ dtMaxEpoch ≤ x then .error .valueErrorTimestamp
    else .ok (.dt ⌊x * 1000000 + 1 / 2⌋)

/-- The stored seconds pattern written by `u_dstamp`: for a number,
`struct.pack('<d', dt - mac_abs_epoch)` (float subtraction = rounded
exact difference); for a `datetime`, `time.mktime(dt.timetuple())` first
drops the microseconds — `timetuple` carries whole seconds only, so the
instant is floored to a whole second — and the exact integer difference
with `mac_abs_epoch` is then packed. -/
def tsPack : Timestamp → Nat
  | .num q => roundDbl (q - mac_abs_epoch)
  | .dt μ => roundDbl ((Int.fdiv μ 1000000 : ℚ) - mac_abs_epoch)

/-- `dstamp(data, pos)`: reads the 8-byte little-endian double payload
(`struct.unpack('<d')`, recovered as its 64-bit pattern) and returns
`datetime.datetime.fromtimestamp(sec + mac_abs_epoch)` via `mkDtime`. -/
def dstamp (data : List Nat) (pos : Nat) : Except Err (Timestamp × Nat) :=
  match bytes data pos 8 with
  | .error e => .error e
  | .ok (raw, p) =>
    match mkDtime (fromLE raw) with
    | .error e => .error e
    | .ok ts => .ok (ts, p)

/-- `u_dstamp(dt)`: the 8 little-endian bytes of the stored seconds value
computed by `tsPack` (`struct.pack('<d', sec)`). -/
def u_dstamp (ts : Timestamp) : List Nat :=
  let t := tsPack ts
  [t % 256, t / 256 % 256, t / 256 ^ 2 % 256, t / 256 ^ 3 % 256,
   t / 256 ^ 4 % 256, t / 256 ^ 5 % 256, t / 256 ^ 6 % 256, t / 256 ^ 7 % 256]

/-- The numeric part of `dstamp`: `sec + mac_abs_epoch`, in exact rational
arithmetic (the value handed to `datetime.datetime.fromtimestamp`). -/
def dstampShift (sec : ℚ) : ℚ := sec + mac_abs_epoch

/-- The numeric part of `u_dstamp` on a numeric argument:
`dt - mac_abs_epoch`, in exact rational arithmetic. -/
def u_dstampShift (dt : ℚ) : ℚ := dt - mac_abs_epoch

/-- `zstr(data, pos)`: the zero-terminated string starting at `pos` — scan
forward until a zero byte or the end of the buffer, returning the span
without the terminator. -/
def zstr (data : List Nat) (pos : Nat) : List Nat :=
  (data.drop pos).takeWhile (fun b => b != 0)

/-- `u_zstr(s)`: append the zero terminator, failing when `s` contains a
NUL byte. -/
def u_zstr (s : List Nat) : Except Err (List Nat) :=
  if 0 ∈ s then .error .embeddedNul else .ok (s ++ [0])

/-- `u_bytes(data, n)`: `data` repeated to a total length of `n` bytes. -/
def u_bytes (data : List Nat) (n : Nat) : List Nat :=
  (List.replicate (n / data.length) data).flatten ++ data.take (n % data.length)

/-- One decoded cookie.  The source returns a dict with exactly these six
keys; `Created` and `Expires` hold `Timestamp` values (decode always
produces `Timestamp.dt`, i.e. `datetime` objects). -/
structure CookieRecord where
  Domain : List Nat
  Name : List Nat
  Path : List Nat
  Value : List Nat
  Created : Timestamp
  Expires : Timestamp
deriving DecidableEq

/-- `cookie(data, pos, size)`: decode one cookie record at `pos`.  The
declared size field must equal `size or len(data)`; the four string fields
are located by offsets relative to the record base; `Expires` is read
before `Created`. -/
def cookie (data : List Nat) (pos : Nat) (size : Nat) : Except Err CookieRecord :=
  let base := pos
  match lsize data pos with
  | .error e => .error e
  | .ok (n, pos) =>
    if n ≠ (if size = 0 then data.length else size) then .error .sizeMismatch
    else
      match bytes data pos 12 with
      | .error e => .error e
      | .ok (_, pos) =>
        match lsize data pos with
        | .error e => .error e
        | .ok (urlpos, pos) =>
          match lsize data pos with
          | .error e => .error e
          | .ok (namepos, pos) =>
            match lsize data pos with
            | .error e => .error e
            | .ok (pathpos, pos) =>
              match lsize data pos with
              | .error e => .error e
              | .ok (valpos, pos) =>
                match bytes data pos 8 with
                | .error e => .error e
                | .ok (_, pos) =>
                  match dstamp data pos with
                  | .error e => .error e
                  | .ok (exp, pos) =>
                    match dstamp data pos with
                    | .error e => .error e
                    | .ok (cre, _) =>
                      .ok { Domain := zstr data (urlpos + base),
                            Name := zstr data (namepos + base),
                            Path := zstr data (pathpos + base),
                            Value := zstr data (valpos + base),
                            Created := cre,
                            Expires := exp }

/-- `u_cookie(ck)`: render a cookie record into a binary packet — size
field, 12 zero bytes, the four string offsets, 8 zero bytes, `Expires`,
`Created`, then the four zero-terminated strings. -/
def u_cookie (ck : CookieRecord) : Except Err (List Nat) :=
  match u_zstr ck.Domain with
  | .error e => .error e
  | .ok host =>
    match u_zstr ck.Name with
    | .error e => .error e
    | .ok name =>
      match u_zstr ck.Path with
      | .error e => .error e
      | .ok path =>
        match u_zstr ck.Value with
        | .error e => .error e
        | .ok val =>
          let p_host := 56
          let p_name := p_host + host.length
          let p_path := p_name + name.length
          let p_val := p_path + path.length
          let size := 56 + host.length + name.length + path.length + val.length
          .ok (u_lsize size ++ u_bytes [0] 12 ++
               u_lsize p_host ++ u_lsize p_name ++ u_lsize p_path ++ u_lsize p_val ++
               u_bytes [0] 8 ++ u_dstamp ck.Expires ++ u_dstamp ck.Created ++
               host ++ name ++ path ++ val)

/-- The offset-reading loop of `phead`: `count` consecutive `lsize` reads. -/
def lsizeN (data : List Nat) (pos : Nat) : Nat → Except Err (List Nat × Nat)
  | 0 => .ok ([], pos)
  | k + 1 =>
    match lsize data pos with
    | .error e => .error e
    | .ok (v, p) =>
      match lsizeN data p k with
      | .error e => .error e
      | .ok (vs, p') => .ok (v :: vs, p')

/-- `phead(data, pos)`: parse a page header — a count `n`, then `n + 1`
little-endian offsets, the last of which must be zero.  In the nonzero
case the source's `raise error("incorrect page sentinel: %s" % ck)`
evaluates its message first and hits the undefined name `ck`, so the
failure actually raised is a `NameError`, modelled by
`Err.nameErrorUndefined`. -/
def phead (data : List Nat) (pos : Nat) : Except Err (List Nat × Nat) :=
  match lsize data pos with
  | .error e => .error e
  | .ok (n, p) =>
    match lsizeN data p (n + 1) with
    | .error e => .error e
    | .ok (xs, p') =>
      if xs.getLastD 0 ≠ 0 then .error .nameErrorUndefined
      else .ok (xs, p')

/-- `page(data, pos, size)`: decode one page — a magic word read with
`bsize` (network byte order) that must equal `PAGE_MAGIC = 256`, then the
header offsets; the final offset is replaced by `size or len(data)`, all
offsets are sorted ascending, and each record's `(start, length)` range is
the delta of consecutive sorted offsets anchored at the page base. -/
def page (data : List Nat) (pos : Nat) (size : Nat) : Except Err (List (Nat × Nat) × Nat) :=
  let base := pos
  match bsize data pos with
  | .error e => .error e
  | .ok (magic, p) =>
    if magic ≠ PAGE_MAGIC then .error .pageMagicMismatch
    else
      match phead data p with
      | .error e => .error e
      | .ok (xs, p') =>
        let xs' := xs.dropLast ++ [if size = 0 then data.length else size]
        let w := List.insertionSort (· ≤ ·) xs'
        .ok (List.zipWith (fun a b => (a + base, b - a)) w w.tail, p')

/-- The page-size reading loop of `head`: `count` consecutive `bsize` reads. -/
def bsizeN (data : List Nat) (pos : Nat) : Nat → Except Err (List Nat × Nat)
  | 0 => .ok ([], pos)
  | k + 1 =>
    match bsize data pos with
    | .error e => .error e
    | .ok (v, p) =>
      match bsizeN data p k with
      | .error e => .error e
      | .ok (vs, p') => .ok (v :: vs, p')

/-- `head(data, pos)`: parse the cookie file header — a page count `n`
(which must not exceed `len(data)`) followed by `n` page sizes, all in
network byte order. -/
def head (data : List Nat) (pos : Nat) : Except Err (List Nat × Nat) :=
  match bsize data pos with
  | .error e => .error e
  | .ok (n, p) =>
    if data.length < n then .error .counterTooLarge
    else bsizeN data p n

/-- The page-range assignment loop of `cfile`: replace each declared page
size by its `(start, length)` range, accumulating the cursor. -/
def assignPages (pos : Nat) : List Nat → List (Nat × Nat) × Nat
  | [] => ([], pos)
  | n :: rest =>
    let r := assignPages (pos + n) rest
    ((pos, n) :: r.1, r.2)

/-- `cfile(data, pos)`: parse a whole binarycookies file — the `'cook'`
magic, the header of page sizes, the page ranges, the trailing 8-byte
checksum, and a final check that the cursor landed exactly at the end of
the buffer. -/
def cfile (data : List Nat) (pos : Nat) :
    Except Err ((List (Nat × Nat) × List Nat) × Nat) :=
  match bytes data pos 4 with
  | .error e => .error e
  | .ok (magic, p) =>
    if magic ≠ FILE_MAGIC then .error .fileMagicMismatch
    else
      match head data p with
      | .error e => .error e
      | .ok (vs, p1) =>
        let a := assignPages p1 vs
        match bytes data a.2 8 with
        | .error e => .error e
        | .ok (ck, p2) =>
          if p2 ≠ data.length then .error .incompleteParse
          else .ok ((a.1, ck), p2)

/-- The packet produced by `u_cookie` on a record with NUL-free strings
(the value of the concatenation in `u_cookie`, with each `u_zstr`
succeeding). -/
def pktOf (r : CookieRecord) : List Nat :=
  let host := r.Domain ++ [0]
  let name := r.Name ++ [0]
  let path := r.Path ++ [0]
  let val := r.Value ++ [0]
  let p_name := 56 + host.length
  let p_path := p_name + name.length
  let p_val := p_path + path.length
  let size := 56 + host.length + name.length + path.length + val.length
  u_lsize size ++ u_bytes [0] 12 ++
    u_lsize 56 ++ u_lsize p_name ++ u_lsize p_path ++ u_lsize p_val ++
    u_bytes [0] 8 ++ u_dstamp r.Expires ++ u_dstamp r.Created ++
    host ++ name ++ path ++ val

/-- A page image: the magic bytes `00 00 01 00`, the little-endian record
count, the record offsets in the order given, the zero sentinel, then the
record content area. -/
def pageBytes (os : List Nat) (content : List Nat) : List Nat :=
  [0, 0, 1, 0] ++ u_lsize os.length ++ (os.map u_lsize).flatten ++ u_lsize 0 ++ content

/-- `tiles rs lo hi`: the ranges `rs` partition the interval `[lo, hi)`
consecutively — each range starts where the previous one ended, the first
starts at `lo`, the last ends at `hi`; hence no gaps and no overlaps. -/
def tiles : List (Nat × Nat) → Nat → Nat → Prop
  | [], lo, hi => lo = hi
  | r :: rest, lo, hi => r.1 = lo ∧ tiles rest (r.1 + r.2) hi

/-- A 62-byte buffer holding one byte of junk followed by a 61-byte record
image whose declared size field is 62 (= the full buffer length): all four
string offsets are 56, both timestamps zero, string area `"a\0\0\0\0"`. -/
def c6buf : List Nat :=
  9 :: ([62, 0, 0, 0] ++ List.replicate 12 0 ++
    [56, 0, 0, 0, 56, 0, 0, 0, 56, 0, 0, 0, 56, 0, 0, 0] ++ List.replicate 8 0 ++
    List.replicate 16 0 ++ [97, 0, 0, 0, 0])

/-- A 61-byte buffer: a 60-byte record image (declared size 60, all four
string offsets 56, string area `"abcd"` with no terminator inside the
record) followed by one extra nonzero byte `101`. -/
def c9buf : List Nat :=
  ([60, 0, 0, 0] ++ List.replicate 12 0 ++
    [56, 0, 0, 0, 56, 0, 0, 0, 56, 0, 0, 0, 56, 0, 0, 0] ++ List.replicate 8 0 ++
    List.replicate 16 0 ++ [97, 98, 99, 100]) ++ [101]

/-- The list of the four string-field offsets stored in a record image
(little-endian reads at record offsets 16, 20, 24 and 28). -/
def strOffsets (rec : List Nat) : List Nat :=
  [fromLE ((rec.drop 16).take 4), fromLE ((rec.drop 20).take 4),
   fromLE ((rec.drop 24).take 4), fromLE ((rec.drop 28).take 4)]

/-- A 63-byte buffer: one junk byte, then a well-formed 61-byte record
image (declared size 61, all four string offsets 56, string area
`"a\0\0\0\0"`), then one junk byte. -/
def c9wit : List Nat :=
  7 :: (([61, 0, 0, 0] ++ List.replicate 12 0 ++
    [56, 0, 0, 0, 56, 0, 0, 0, 56, 0, 0, 0, 56, 0, 0, 0] ++ List.replicate 8 0 ++
    List.replicate 16 0 ++ [97, 0, 0, 0, 0]) ++ [5])

section Lemmas

theorem bytes_ok (data : List Nat) (pos n : Nat) (h : pos + n ≤ data.length) :
    bytes data pos n = .ok ((data.drop pos).take n, pos + n) := by
  unfold bytes
  rw [if_neg (by omega)]

theorem bytes_err (data : List Nat) (pos n : Nat) (h : data.length < pos + n) :
    bytes data pos n = .error .outOfInput := by
  unfold bytes
  rw [if_pos h]

theorem lsize_ok (data : List Nat) (pos : Nat) (h : pos + 4 ≤ data.length) :
    lsize data pos = .ok (fromLE ((data.drop pos).take 4), pos + 4) := by
  unfold lsize
  rw [bytes_ok data pos 4 h]

theorem bsize_ok (data : List Nat) (pos : Nat) (h : pos + 4 ≤ data.length) :
    bsize data pos = .ok (fromBE ((data.drop pos).take 4), pos + 4) := by
  unfold bsize
  rw [bytes_ok data pos 4 h]

theorem dstamp_err_ok (data : List Nat) (pos : Nat) (e : Err)
    (h : pos + 8 ≤ data.length)
    (hm : mkDtime (fromLE ((data.drop pos).take 8)) = .error e) :
    dstamp data pos = .error e := by
  unfold dstamp
  rw [bytes_ok data pos 8 h]
  simp only [hm]

theorem dstamp_ok (data : List Nat) (pos : Nat) (ts : Timestamp)
    (h : pos + 8 ≤ data.length)
    (hm : mkDtime (fromLE ((data.drop pos).take 8)) = .ok ts) :
    dstamp data pos = .ok (ts, pos + 8) := by
  unfold dstamp
  rw [bytes_ok data pos 8 h]
  simp only [hm]

theorem length_u_lsize (v : Nat) : (u_lsize v).length = 4 := rfl

theorem length_u_dstamp (ts : Timestamp) : (u_dstamp ts).length = 8 := rfl

theorem u_bytes_zero_12 : u_bytes [0] 12 = List.replicate 12 0 := by decide

theorem u_bytes_zero_8 : u_bytes [0] 8 = List.replicate 8 0 := by decide

theorem fromLE_u_lsize (v : Nat) (h : v < 2 ^ 32) : fromLE (u_lsize v) = v := by
  norm_num [fromLE, u_lsize]
  omega

theorem fromLE_u_dstamp (ts : Timestamp) (h : tsPack ts < 2 ^ 64) :
    fromLE (u_dstamp ts) = tsPack ts := by
  norm_num [fromLE, u_dstamp]
  omega

theorem drop_append_len {α : Type} (a b : List α) {n : Nat} (h : a.length = n) :
    (a ++ b).drop n = b := by
  subst h
  exact List.drop_left a b

theorem take_append_len {α : Type} (a b : List α) {n : Nat} (h : a.length = n) :
    (a ++ b).take n = a := by
  subst h
  exact List.take_left a b

theorem takeWhile_append_zero (a rest : List Nat) (h : (0 : Nat) ∉ a) :
    (a ++ 0 :: rest).takeWhile (fun b => b != 0) = a := by
  induction a with
  | nil => simp [List.takeWhile]
  | cons x t ih =>
    have hx : x ≠ 0 := fun hc => h (by simp [hc])
    simp only [List.cons_append, List.takeWhile_cons]
    rw [if_pos (by simpa using hx)]
    rw [ih (fun hc => h (List.mem_cons_of_mem _ hc))]

/-- Characterization of `cookie` when the whole 56-byte fixed header is in
range: the decode is the size check followed by direct field extraction. -/
theorem cookie_char (data : List Nat) (pos size : Nat) (h : pos + 56 ≤ data.length) :
    cookie data pos size =
      if fromLE ((data.drop pos).take 4) ≠ (if size = 0 then data.length else size)
      then .error .sizeMismatch
      else
        match mkDtime (fromLE ((data.drop (pos + 40)).take 8)),
              mkDtime (fromLE ((data.drop (pos + 48)).take 8)) with
        | .error e, _ => .error e
        | .ok _, .error e => .error e
        | .ok texp, .ok tcre =>
          .ok { Domain := zstr data (fromLE ((data.drop (pos + 16)).take 4) + pos),
                Name := zstr data (fromLE ((data.drop (pos + 20)).take 4) + pos),
                Path := zstr data (fromLE ((data.drop (pos + 24)).take 4) + pos),
                Value := zstr data (fromLE ((data.drop (pos + 28)).take 4) + pos),
                Created := tcre,
                Expires := texp } := by
  unfold cookie
  simp only [lsize_ok data pos (by omega),
    bytes_ok data (pos + 4) 12 (by omega),
    show pos + 4 + 12 = pos + 16 from by omega,
    lsize_ok data (pos + 16) (by omega),
    show pos + 16 + 4 = pos + 20 from by omega,
    lsize_ok data (pos + 20) (by omega),
    show pos + 20 + 4 = pos + 24 from by omega,
    lsize_ok data (pos + 24) (by omega),
    show pos + 24 + 4 = pos + 28 from by omega,
    lsize_ok data (pos + 28) (by omega),
    show pos + 28 + 4 = pos + 32 from by omega,
    bytes_ok data (pos + 32) 8 (by omega),
    show pos + 32 + 8 = pos + 40 from by omega]
  cases hE : mkDtime (fromLE ((data.drop (pos + 40)).take 8)) with
  | error e =>
    simp only [dstamp_err_ok data (pos + 40) e (by omega) hE]
  | ok texp =>
    simp only [dstamp_ok data (pos + 40) texp (by omega) hE,
      show pos + 40 + 8 = pos + 48 from by omega]
    cases hC : mkDtime (fromLE ((data.drop (pos + 48)).take 8)) with
    | error e =>
      simp only [dstamp_err_ok data (pos + 48) e (by omega) hC]
    | ok tcre =>
      simp only [dstamp_ok data (pos + 48) tcre (by omega) hC]

theorem u_cookie_ok (r : CookieRecord) (hD : (0 : Nat) ∉ r.Domain)
    (hN : (0 : Nat) ∉ r.Name) (hP : (0 : Nat) ∉ r.Path) (hV : (0 : Nat) ∉ r.Value) :
    u_cookie r = .ok (pktOf r) := by
  unfold u_cookie u_zstr pktOf
  rw [if_neg hD, if_neg hN, if_neg hP, if_neg hV]

/-- Decoding a buffer laid out exactly as `u_cookie` lays out a record:
the size check against `56 + tail.length`, then field extraction, with the
string area starting at offset 56. -/
theorem cookie_layout (b a12 a8 t1 t2 tail : List Nat) (n0 o1 o2 o3 o4 : Nat)
    (T1 T2 : Timestamp)
    (hb : b = u_lsize n0 ++ (a12 ++ (u_lsize o1 ++ (u_lsize o2 ++ (u_lsize o3 ++
      (u_lsize o4 ++ (a8 ++ (t1 ++ (t2 ++ tail)))))))))
    (h12 : a12.length = 12) (h8 : a8.length = 8)
    (ht1 : t1.length = 8) (ht2 : t2.length = 8) (hn0 : n0 < 2 ^ 32)
    (ho1 : o1 < 2 ^ 32) (ho2 : o2 < 2 ^ 32) (ho3 : o3 < 2 ^ 32) (ho4 : o4 < 2 ^ 32)
    (hT1 : mkDtime (fromLE t1) = .ok T1) (hT2 : mkDtime (fromLE t2) = .ok T2) :
    (cookie b 0 0 =
      if n0 ≠ 56 + tail.length then .error Err.sizeMismatch
      else .ok { Domain := zstr b o1, Name := zstr b o2, Path := zstr b o3,
                 Value := zstr b o4, Created := T2, Expires := T1 }) ∧
    b.drop 56 = tail := by
  have hlen : b.length = 56 + tail.length := by
    rw [hb]
    simp [length_u_lsize, h12, h8, ht1, ht2]
    omega
  have d4 : b.drop 4 = a12 ++ (u_lsize o1 ++ (u_lsize o2 ++ (u_lsize o3 ++
      (u_lsize o4 ++ (a8 ++ (t1 ++ (t2 ++ tail))))))) := by
    rw [hb]
    exact drop_append_len _ _ (length_u_lsize n0)
  have d16 : b.drop 16 = u_lsize o1 ++ (u_lsize o2 ++ (u_lsize o3 ++
      (u_lsize o4 ++ (a8 ++ (t1 ++ (t2 ++ tail)))))) := by
    rw [show (16 : Nat) = 4 + 12 from rfl, ← List.drop_drop, d4]
    exact drop_append_len _ _ h12
  have d20 : b.drop 20 = u_lsize o2 ++ (u_lsize o3 ++
      (u_lsize o4 ++ (a8 ++ (t1 ++ (t2 ++ tail))))) := by
    rw [show (20 : Nat) = 16 + 4 from rfl, ← List.drop_drop, d16]
    exact drop_append_len _ _ (length_u_lsize o1)
  have d24 : b.drop 24 = u_lsize o3 ++
      (u_lsize o4 ++ (a8 ++ (t1 ++ (t2 ++ tail)))) := by
    rw [show (24 : Nat) = 20 + 4 from rfl, ← List.drop_drop, d20]
    exact drop_append_len _ _ (length_u_lsize o2)
  have d28 : b.drop 28 = u_lsize o4 ++ (a8 ++ (t1 ++ (t2 ++ tail))) := by
    rw [show (28 : Nat) = 24 + 4 from rfl, ← List.drop_drop, d24]
    exact drop_append_len _ _ (length_u_lsize o3)
  have d32 : b.drop 32 = a8 ++ (t1 ++ (t2 ++ tail)) := by
    rw [show (32 : Nat) = 28 + 4 from rfl, ← List.drop_drop, d28]
    exact drop_append_len _ _ (length_u_lsize o4)
  have d40 : b.drop 40 = t1 ++ (t2 ++ tail) := by
    rw [show (40 : Nat) = 32 + 8 from rfl, ← List.drop_drop, d32]
    exact drop_append_len _ _ h8
  have d48 : b.drop 48 = t2 ++ tail := by
    rw [show (48 : Nat) = 40 + 8 from rfl, ← List.drop_drop, d40]
    exact drop_append_len _ _ ht1
  have d56 : b.drop 56 = tail := by
    rw [show (56 : Nat) = 48 + 8 from rfl, ← List.drop_drop, d48]
    exact drop_append_len _ _ ht2
  refine ⟨?_, d56⟩
  have r0 : b.take 4 = u_lsize n0 := by
    rw [hb]
    exact take_append_len _ _ (length_u_lsize n0)
  have r16 : (b.drop 16).take 4 = u_lsize o1 := by
    rw [d16]
    exact take_append_len _ _ (length_u_lsize o1)
  have r20 : (b.drop 20).take 4 = u_lsize o2 := by
    rw [d20]
    exact take_append_len _ _ (length_u_lsize o2)
  have r24 : (b.drop 24).take 4 = u_lsize o3 := by
    rw [d24]
    exact take_append_len _ _ (length_u_lsize o3)
  have r28 : (b.drop 28).take 4 = u_lsize o4 := by
    rw [d28]
    exact take_append_len _ _ (length_u_lsize o4)
  have r40 : (b.drop 40).take 8 = t1 := by
    rw [d40]
    exact take_append_len _ _ ht1
  have r48 : (b.drop 48).take 8 = t2 := by
    rw [d48]
    exact take_append_len _ _ ht2
  rw [cookie_char b 0 0 (by omega)]
  simp only [Nat.zero_add, Nat.add_zero, List.drop_zero]
  rw [r0, fromLE_u_lsize n0 hn0, r16, fromLE_u_lsize o1 ho1, r20, fromLE_u_lsize o2 ho2,
    r24, fromLE_u_lsize o3 ho3, r28, fromLE_u_lsize o4 ho4, r40, r48]
  simp only [hT1, hT2, if_true]
  rw [hlen]

/-- `cookie (u_cookie r) = r` stated over the components of `r`. -/
theorem cookie_decode_encode (D N P V : List Nat) (cre exp : Timestamp)
    (hD : (0 : Nat) ∉ D) (hN : (0 : Nat) ∉ N) (hP : (0 : Nat) ∉ P) (hV : (0 : Nat) ∉ V)
    (hcre : mkDtime (fromLE (u_dstamp cre)) = .ok cre)
    (hexp : mkDtime (fromLE (u_dstamp exp)) = .ok exp)
    (hsz : 56 + (D.length + 1) + (N.length + 1) + (P.length + 1) + (V.length + 1) < 2 ^ 32) :
    cookie (pktOf ⟨D, N, P, V, cre, exp⟩) 0 0 = .ok ⟨D, N, P, V, cre, exp⟩ := by
  have hpkt : pktOf ⟨D, N, P, V, cre, exp⟩ =
      u_lsize (56 + (D ++ [0]).length + (N ++ [0]).length + (P ++ [0]).length + (V ++ [0]).length) ++
        (u_bytes [0] 12 ++ (u_lsize 56 ++ (u_lsize (56 + (D ++ [0]).length) ++
          (u_lsize (56 + (D ++ [0]).length + (N ++ [0]).length) ++
            (u_lsize (56 + (D ++ [0]).length + (N ++ [0]).length + (P ++ [0]).length) ++
              (u_bytes [0] 8 ++ (u_dstamp exp ++ (u_dstamp cre ++
                ((D ++ [0]) ++ ((N ++ [0]) ++ ((P ++ [0]) ++ (V ++ [0])))))))))))) := by
    unfold pktOf
    simp [List.length_append]
  obtain ⟨hcook, hdrop⟩ := cookie_layout (pktOf ⟨D, N, P, V, cre, exp⟩)
    (u_bytes [0] 12) (u_bytes [0] 8) (u_dstamp exp) (u_dstamp cre)
    ((D ++ [0]) ++ ((N ++ [0]) ++ ((P ++ [0]) ++ (V ++ [0]))))
    (56 + (D ++ [0]).length + (N ++ [0]).length + (P ++ [0]).length + (V ++ [0]).length)
    56 (56 + (D ++ [0]).length) (56 + (D ++ [0]).length + (N ++ [0]).length)
    (56 + (D ++ [0]).length + (N ++ [0]).length + (P ++ [0]).length) exp cre
    hpkt (by decide) (by decide) (length_u_dstamp exp) (length_u_dstamp cre)
    (by simp [List.length_append]; omega) (by omega) (by simp [List.length_append]; omega)
    (by simp [List.length_append]; omega) (by simp [List.length_append]; omega) hexp hcre
  rw [hcook, if_neg (by simp [List.length_append]; omega)]
  have e2 : (pktOf ⟨D, N, P, V, cre, exp⟩).drop (56 + (D ++ [0]).length) =
      (N ++ [0]) ++ ((P ++ [0]) ++ (V ++ [0])) := by
    rw [← List.drop_drop, hdrop]
    exact drop_append_len _ _ rfl
  have e3 : (pktOf ⟨D, N, P, V, cre, exp⟩).drop (56 + (D ++ [0]).length + (N ++ [0]).length) =
      (P ++ [0]) ++ (V ++ [0]) := by
    rw [← List.drop_drop, e2]
    exact drop_append_len _ _ rfl
  have e4 : (pktOf ⟨D, N, P, V, cre, exp⟩).drop
      (56 + (D ++ [0]).length + (N ++ [0]).length + (P ++ [0]).length) = V ++ [0] := by
    rw [← List.drop_drop, e3]
    exact drop_append_len _ _ rfl
  have z1 : zstr (pktOf ⟨D, N, P, V, cre, exp⟩) 56 = D := by
    unfold zstr
    rw [hdrop, List.append_assoc, List.singleton_append]
    exact takeWhile_append_zero D _ hD
  have z2 : zstr (pktOf ⟨D, N, P, V, cre, exp⟩) (56 + (D ++ [0]).length) = N := by
    unfold zstr
    rw [e2, List.append_assoc, List.singleton_append]
    exact takeWhile_append_zero N _ hN
  have z3 : zstr (pktOf ⟨D, N, P, V, cre, exp⟩)
      (56 + (D ++ [0]).length + (N ++ [0]).length) = P := by
    unfold zstr
    rw [e3, List.append_assoc, List.singleton_append]
    exact takeWhile_append_zero P _ hP
  have z4 : zstr (pktOf ⟨D, N, P, V, cre, exp⟩)
      (56 + (D ++ [0]).length + (N ++ [0]).length + (P ++ [0]).length) = V := by
    unfold zstr
    rw [e4]
    exact takeWhile_append_zero V [] hV
  rw [z1, z2, z3, z4]

theorem bytes_error_eq (data : List Nat) (pos n : Nat) (e : Err)
    (h : bytes data pos n = .error e) : e = .outOfInput := by
  unfold bytes at h
  split at h
  · injection h with h2
    exact h2.symm
  · cases h

theorem lsize_error_eq (data : List Nat) (pos : Nat) (e : Err)
    (h : lsize data pos = .error e) : e = .outOfInput := by
  unfold lsize at h
  cases hb : bytes data pos 4 with
  | error e' =>
    rw [hb] at h
    injection h with h2
    rw [← h2]
    exact bytes_error_eq _ _ _ _ hb
  | ok v =>
    obtain ⟨a, b⟩ := v
    rw [hb] at h
    simp at h

theorem mkDtime_error_eq (p : Nat) (e : Err) (h : mkDtime p = .error e) :
    e = .valueErrorTimestamp := by
  unfold mkDtime at h
  split at h
  · injection h with h2
    exact h2.symm
  · dsimp only at h
    split at h
    · injection h with h2
      exact h2.symm
    · cases h

theorem dstamp_error_cases (data : List Nat) (pos : Nat) (e : Err)
    (h : dstamp data pos = .error e) : e = .outOfInput ∨ e = .valueErrorTimestamp := by
  unfold dstamp at h
  cases hb : bytes data pos 8 with
  | error e' =>
    rw [hb] at h
    injection h with h2
    exact .inl (h2 ▸ bytes_error_eq _ _ _ _ hb)
  | ok v =>
    obtain ⟨a, b⟩ := v
    simp only [hb] at h
    cases hm : mkDtime (fromLE a) with
    | error e' =>
      simp only [hm] at h
      injection h with h2
      exact .inr (h2 ▸ mkDtime_error_eq _ _ hm)
    | ok ts =>
      simp only [hm] at h
      simp at h

theorem bsize_error_eq (data : List Nat) (pos : Nat) (e : Err)
    (h : bsize data pos = .error e) : e = .outOfInput := by
  unfold bsize at h
  cases hb : bytes data pos 4 with
  | error e' =>
    rw [hb] at h
    injection h with h2
    rw [← h2]
    exact bytes_error_eq _ _ _ _ hb
  | ok v =>
    obtain ⟨a, b⟩ := v
    rw [hb] at h
    simp at h

theorem lsizeN_error_eq (data : List Nat) : ∀ (k : Nat) (pos : Nat) (e : Err),
    lsizeN data pos k = .error e → e = .outOfInput := by
  intro k
  induction k with
  | zero =>
    intro pos e h
    simp [lsizeN] at h
  | succ n ih =>
    intro pos e h
    unfold lsizeN at h
    cases hl : lsize data pos with
    | error e' =>
      rw [hl] at h
      injection h with h2
      rw [← h2]
      exact lsize_error_eq _ _ _ hl
    | ok v =>
      obtain ⟨a, p⟩ := v
      simp only [hl] at h
      cases hr : lsizeN data p n with
      | error e' =>
        simp only [hr] at h
        injection h with h2
        rw [← h2]
        exact ih p e' hr
      | ok w =>
        obtain ⟨vs, p'⟩ := w
        simp only [hr] at h
        simp at h

theorem phead_error_cases (data : List Nat) (pos : Nat) (e : Err)
    (h : phead data pos = .error e) : e = .outOfInput ∨ e = .nameErrorUndefined := by
  unfold phead at h
  cases hl : lsize data pos with
  | error e' =>
    rw [hl] at h
    injection h with h2
    exact .inl (h2 ▸ lsize_error_eq _ _ _ hl)
  | ok v =>
    obtain ⟨n, p⟩ := v
    simp only [hl] at h
    cases hr : lsizeN data p (n + 1) with
    | error e' =>
      simp only [hr] at h
      injection h with h2
      exact .inl (h2 ▸ lsizeN_error_eq _ _ _ _ hr)
    | ok w =>
      obtain ⟨xs, p'⟩ := w
      simp only [hr] at h
      by_cases hx : xs.getLastD 0 ≠ 0
      · rw [if_pos hx] at h
        injection h with h2
        exact .inr h2.symm
      · rw [if_neg hx] at h
        cases h

/-- `cookie` fails with `sizeMismatch` exactly when the 4-byte size field
is readable and differs from `size or len(data)`; no later stage of the
record decode can produce a `sizeMismatch`. -/
theorem cookie_sizeMismatch_iff (data : List Nat) (pos size : Nat) :
    cookie data pos size = .error Err.sizeMismatch ↔
      (pos + 4 ≤ data.length ∧
        fromLE ((data.drop pos).take 4) ≠ (if size = 0 then data.length else size)) := by
  by_cases h4 : pos + 4 ≤ data.length
  · unfold cookie
    simp only [lsize_ok data pos h4]
    by_cases hc : fromLE ((data.drop pos).take 4) ≠ (if size = 0 then data.length else size)
    · rw [if_pos hc]
      simp [h4, hc]
    · rw [if_neg hc]
      refine iff_of_false ?_ (fun hcontra => hc hcontra.2)
      intro hbad
      cases hb1 : bytes data (pos + 4) 12 with
      | error e =>
        have he := bytes_error_eq _ _ _ _ hb1
        subst he
        simp only [hb1] at hbad
        simp at hbad
      | ok v1 =>
        obtain ⟨w1, p1⟩ := v1
        simp only [hb1] at hbad
        cases hb2 : lsize data p1 with
        | error e =>
          have he := lsize_error_eq _ _ _ hb2
          subst he
          simp only [hb2] at hbad
          simp at hbad
        | ok v2 =>
          obtain ⟨o1, p2⟩ := v2
          simp only [hb2] at hbad
          cases hb3 : lsize data p2 with
          | error e =>
            have he := lsize_error_eq _ _ _ hb3
            subst he
            simp only [hb3] at hbad
            simp at hbad
          | ok v3 =>
            obtain ⟨o2, p3⟩ := v3
            simp only [hb3] at hbad
            cases hb4 : lsize data p3 with
            | error e =>
              have he := lsize_error_eq _ _ _ hb4
              subst he
              simp only [hb4] at hbad
              simp at hbad
            | ok v4 =>
              obtain ⟨o3, p4⟩ := v4
              simp only [hb4] at hbad
              cases hb5 : lsize data p4 with
              | error e =>
                have he := lsize_error_eq _ _ _ hb5
                subst he
                simp only [hb5] at hbad
                simp at hbad
              | ok v5 =>
                obtain ⟨o4, p5⟩ := v5
                simp only [hb5] at hbad
                cases hb6 : bytes data p5 8 with
                | error e =>
                  have he := bytes_error_eq _ _ _ _ hb6
                  subst he
                  simp only [hb6] at hbad
                  simp at hbad
                | ok v6 =>
                  obtain ⟨w6, p6⟩ := v6
                  simp only [hb6] at hbad
                  cases hb7 : dstamp data p6 with
                  | error e =>
                    simp only [hb7] at hbad
                    rcases dstamp_error_cases _ _ _ hb7 with he | he <;> (subst he; simp at hbad)
                  | ok v7 =>
                    obtain ⟨t1, p7⟩ := v7
                    simp only [hb7] at hbad
                    cases hb8 : dstamp data p7 with
                    | error e =>
                      simp only [hb8] at hbad
                      rcases dstamp_error_cases _ _ _ hb8 with he | he <;> (subst he; simp at hbad)
                    | ok v8 =>
                      obtain ⟨t2, p8⟩ := v8
                      simp only [hb8] at hbad
                      simp at hbad
  · unfold cookie
    have hl : lsize data pos = .error .outOfInput := by
      unfold lsize
      rw [bytes_err data pos 4 (by omega)]
    simp only [hl]
    exact iff_of_false (by simp) (fun hcontra => h4 hcontra.1)

theorem length_flatten_map_u_lsize (os : List Nat) :
    ((os.map u_lsize).flatten).length = 4 * os.length := by
  induction os with
  | nil => simp
  | cons o t ih =>
    simp [ih, length_u_lsize]
    omega

theorem lsizeN_encode : ∀ (os : List Nat) (pre rest : List Nat),
    (∀ o ∈ os, o < 2 ^ 32) →
    lsizeN (pre ++ ((os.map u_lsize).flatten ++ rest)) pre.length os.length =
      .ok (os, pre.length + 4 * os.length) := by
  intro os
  induction os with
  | nil =>
    intro pre rest h
    simp [lsizeN]
  | cons o t ih =>
    intro pre rest h
    have hb : (((o :: t).map u_lsize).flatten ++ rest) =
        u_lsize o ++ ((t.map u_lsize).flatten ++ rest) := by
      simp
    rw [hb]
    simp only [List.length_cons]
    unfold lsizeN
    have h4 : pre.length + 4 ≤
        (pre ++ (u_lsize o ++ ((t.map u_lsize).flatten ++ rest))).length := by
      simp [length_u_lsize]
    simp only [lsize_ok _ pre.length h4]
    have hd : (pre ++ (u_lsize o ++ ((t.map u_lsize).flatten ++ rest))).drop pre.length =
        u_lsize o ++ ((t.map u_lsize).flatten ++ rest) := drop_append_len _ _ rfl
    simp only [hd, take_append_len _ _ (length_u_lsize o), fromLE_u_lsize o (h o (by simp))]
    have hpre : pre.length + 4 = (pre ++ u_lsize o).length := by
      simp [length_u_lsize]
    rw [hpre, show pre ++ (u_lsize o ++ ((t.map u_lsize).flatten ++ rest)) =
      (pre ++ u_lsize o) ++ ((t.map u_lsize).flatten ++ rest) from
        (List.append_assoc _ _ _).symm]
    simp only [ih (pre ++ u_lsize o) rest (fun o' ho' => h o' (by simp [ho']))]
    simp only [Except.ok.injEq, Prod.mk.injEq, List.length_append, length_u_lsize, true_and]
    omega

theorem phead_pageBytes (os content : List Nat) (hk : os.length < 2 ^ 32)
    (ho : ∀ o ∈ os, o < 2 ^ 32) :
    phead (pageBytes os content) 4 = .ok (os ++ [0], 12 + 4 * os.length) := by
  unfold phead
  have h4 : 4 + 4 ≤ (pageBytes os content).length := by
    simp [pageBytes, length_u_lsize, length_flatten_map_u_lsize]
  simp only [lsize_ok _ 4 h4]
  have hd : (pageBytes os content).drop 4 =
      u_lsize os.length ++ ((os.map u_lsize).flatten ++ (u_lsize 0 ++ content)) := by
    unfold pageBytes
    rw [List.append_assoc, List.append_assoc]
    exact drop_append_len [0, 0, 1, 0] _ rfl
  simp only [hd, take_append_len _ _ (length_u_lsize os.length), fromLE_u_lsize os.length hk]
  have hbuf : pageBytes os content =
      ([0, 0, 1, 0] ++ u_lsize os.length) ++ (((os ++ [0]).map u_lsize).flatten ++ content) := by
    simp [pageBytes]
  have henc := lsizeN_encode (os ++ [0]) ([0, 0, 1, 0] ++ u_lsize os.length) content
    (fun o hmem => by
      rcases List.mem_append.mp hmem with hmo | hmo
      · exact ho o hmo
      · simp at hmo
        omega)
  simp only [List.length_append, List.length_cons, List.length_nil, length_u_lsize] at henc
  rw [hbuf]
  simp only [show (4 : Nat) + 4 = 8 from rfl, show (0 : Nat) + 4 = 4 from rfl] at *
  simp only [henc]
  rw [if_neg (by simp [List.getLastD_concat])]
  simp
  omega

theorem sorted_head_le (x : Nat) (t : List Nat) (hs : List.Sorted (· ≤ ·) (x :: t)) :
    ∀ e ∈ x :: t, x ≤ e := by
  intro e he
  rcases List.mem_cons.mp he with h | h
  · rw [h]
  · exact List.rel_of_sorted_cons hs e h

theorem tiles_zipWith_sorted_max : ∀ (t : List Nat) (x s : Nat),
    List.Sorted (· ≤ ·) (x :: t) → s ∈ x :: t → (∀ e ∈ x :: t, e ≤ s) →
    tiles (List.zipWith (fun a b => (a, b - a)) (x :: t) t) x s := by
  intro t
  induction t with
  | nil =>
    intro x s hs hmem hmax
    have hsx : s = x := by simpa using hmem
    subst hsx
    exact rfl
  | cons y t' ih =>
    intro x s hs hmem hmax
    have hxy : x ≤ y := List.rel_of_sorted_cons hs y (by simp)
    have hmem' : s ∈ y :: t' := by
      rcases List.mem_cons.mp hmem with h | h
      · have h1 : y ≤ s := hmax y (by simp)
        have h2 : s = y := by omega
        exact List.mem_cons.mpr (.inl h2)
      · exact h
    have hmax' : ∀ e ∈ y :: t', e ≤ s := fun e he => hmax e (List.mem_cons_of_mem _ he)
    refine ⟨rfl, ?_⟩
    rw [show x + (y - x) = y from by omega]
    exact ih y s hs.of_cons hmem' hmax'

theorem page_pageBytes_partition (os content : List Nat)
    (hs32 : 12 + 4 * os.length + content.length < 2 ^ 32)
    (hle : ∀ o ∈ os, o ≤ 12 + 4 * os.length + content.length)
    (hnil : os = [] → content = [])
    (hmin : os ≠ [] → (12 + 4 * os.length) ∈ os ∧ ∀ o ∈ os, 12 + 4 * os.length ≤ o) :
    ∃ rs, page (pageBytes os content) 0 (12 + 4 * os.length + content.length) =
        .ok (rs, 12 + 4 * os.length) ∧
      rs.length = os.length ∧
      tiles rs (12 + 4 * os.length) (12 + 4 * os.length + content.length) := by
  by_cases hos : os = []
  · subst hos
    have hc := hnil rfl
    subst hc
    exact ⟨[], by decide, by decide, rfl⟩
  · obtain ⟨hminmem, hminle⟩ := hmin hos
    have hlen : (pageBytes os content).length = 12 + 4 * os.length + content.length := by
      simp only [pageBytes, List.length_append, length_flatten_map_u_lsize, length_u_lsize,
        List.length_cons, List.length_nil]
      omega
    unfold page
    have h04 : 0 + 4 ≤ (pageBytes os content).length := by omega
    simp only [bsize_ok (pageBytes os content) 0 h04]
    have hm : fromBE (((pageBytes os content).drop 0).take 4) = PAGE_MAGIC := by
      simp only [List.drop_zero]
      unfold pageBytes
      rw [List.append_assoc, List.append_assoc, List.append_assoc,
        @take_append_len Nat [0, 0, 1, 0] _ 4 rfl]
      decide
    rw [hm, if_neg (show ¬(PAGE_MAGIC ≠ PAGE_MAGIC) from by simp)]
    simp only [phead_pageBytes os content (by omega) (fun o ho => by have := hle o ho; omega)]
    have hxs : ((os ++ [0]).dropLast ++
        [if 12 + 4 * os.length + content.length = 0 then (pageBytes os content).length
         else 12 + 4 * os.length + content.length]) =
        os ++ [12 + 4 * os.length + content.length] := by
      rw [List.dropLast_concat, if_neg (by omega)]
    rw [hxs]
    have hsorted := List.sorted_insertionSort (· ≤ ·)
      (os ++ [12 + 4 * os.length + content.length])
    have hperm := List.perm_insertionSort (· ≤ ·)
      (os ++ [12 + 4 * os.length + content.length])
    cases hw : List.insertionSort (· ≤ ·)
        (os ++ [12 + 4 * os.length + content.length]) with
    | nil =>
      exfalso
      rw [hw] at hperm
      have := hperm.length_eq
      simp at this
    | cons x t =>
      rw [hw] at hsorted hperm
      have hlent : t.length = os.length := by
        have := hperm.length_eq
        simp at this
        omega
      have hmax : ∀ e ∈ x :: t, e ≤ 12 + 4 * os.length + content.length := by
        intro e he
        have hee := hperm.subset he
        rcases List.mem_append.mp hee with hmo | hmo
        · exact hle e hmo
        · simp at hmo
          omega
      have hmem_s : (12 + 4 * os.length + content.length) ∈ x :: t := by
        exact hperm.mem_iff.mpr (by simp)
      have hx : x = 12 + 4 * os.length := by
        have hx1 : x ≤ 12 + 4 * os.length :=
          sorted_head_le x t hsorted _ (hperm.mem_iff.mpr (List.mem_append_left _ hminmem))
        have hx2 : 12 + 4 * os.length ≤ x := by
          have hxm := hperm.subset (List.mem_cons_self x t)
          rcases List.mem_append.mp hxm with hmo | hmo
          · exact hminle x hmo
          · simp at hmo
            omega
        omega
      subst hx
      refine ⟨_, rfl, ?_, ?_⟩
      · simp [List.length_zipWith]
        omega
      · simp only [Nat.add_zero, List.tail_cons]
        exact tiles_zipWith_sorted_max t _ _ hsorted hmem_s hmax

theorem assignPages_snd (vs : List Nat) : ∀ pos, (assignPages pos vs).2 = pos + vs.sum := by
  induction vs with
  | nil =>
    intro pos
    simp [assignPages]
  | cons n rest ih =>
    intro pos
    simp [assignPages, ih]
    omega

/-- `page` fails with `pageMagicMismatch` exactly when the 4 bytes at the
page base, read in network byte order by `bsize`, differ from
`PAGE_MAGIC`; no later stage of the page decode can produce that error. -/
theorem page_pageMagic_iff (data : List Nat) (pos size : Nat) (h4 : pos + 4 ≤ data.length) :
    page data pos size = .error Err.pageMagicMismatch ↔
      fromBE ((data.drop pos).take 4) ≠ PAGE_MAGIC := by
  unfold page
  simp only [bsize_ok data pos h4]
  by_cases hm : fromBE ((data.drop pos).take 4) ≠ PAGE_MAGIC
  · rw [if_pos hm]
    simpa using hm
  · rw [if_neg hm]
    refine iff_of_false ?_ hm
    intro hbad
    cases hp : phead data (pos + 4) with
    | error e =>
      simp only [hp] at hbad
      injection hbad with h2
      subst h2
      rcases phead_error_cases _ _ _ hp with he | he <;> simp at he
    | ok v =>
      obtain ⟨xs, p'⟩ := v
      simp only [hp] at hbad
      simp at hbad

/-- Behaviour of `cfile` once the magic matches and the header parses: the
checksum is the 8 bytes after the last declared page, and the decode fails
with `incompleteParse` exactly when those 8 bytes do not end the buffer. -/
theorem cfile_char (data : List Nat) (vs : List Nat) (p0 : Nat)
    (hmagic : data.take 4 = FILE_MAGIC)
    (hhead : head data 4 = .ok (vs, p0))
    (hck : p0 + vs.sum + 8 ≤ data.length) :
    (cfile data 0 = .error Err.incompleteParse ↔ p0 + vs.sum + 8 ≠ data.length) ∧
    (p0 + vs.sum + 8 = data.length →
      cfile data 0 =
        .ok (((assignPages p0 vs).1, (data.drop (p0 + vs.sum)).take 8), data.length)) := by
  have h4 : 4 ≤ data.length := by
    have := congrArg List.length hmagic
    simp [FILE_MAGIC] at this
    omega
  unfold cfile
  simp only [bytes_ok data 0 4 (by omega), List.drop_zero, hmagic, Nat.zero_add]
  rw [if_neg (by simp)]
  simp only [hhead, assignPages_snd vs p0]
  simp only [bytes_ok data (p0 + vs.sum) 8 (by omega)]
  constructor
  · by_cases he : p0 + vs.sum + 8 = data.length
    · rw [if_neg (by omega)]
      exact iff_of_false (by simp) (by omega)
    · rw [if_pos (by omega)]
      exact iff_of_true rfl (by omega)
  · intro he
    rw [if_neg (by omega), he]

theorem takeWhile_take_of_mem (l : List Nat) : ∀ (m : Nat), (0 : Nat) ∈ l.take m →
    (l.take m).takeWhile (fun b => b != 0) = l.takeWhile (fun b => b != 0) := by
  induction l with
  | nil => simp
  | cons a t ih =>
    intro m h
    cases m with
    | zero => simp at h
    | succ m' =>
      simp only [List.take_succ_cons] at h ⊢
      by_cases ha : a = 0
      · subst ha
        simp [List.takeWhile]
      · have h' : (0 : Nat) ∈ t.take m' := by
          rcases List.mem_cons.mp h with h0 | h0
          · exact absurd h0.symm ha
          · exact h0
        simp only [List.takeWhile_cons]
        rw [ih m' h']

theorem slice_read (data : List Nat) (start size k m : Nat) (hk : k + m ≤ size) :
    (((data.drop start).take size).drop k).take m = (data.drop (start + k)).take m := by
  rw [List.drop_take, List.drop_drop, List.take_take, min_eq_left (by omega)]

/-- Decoding a record in place agrees with decoding its extracted slice
when the range is in bounds, covers the 56-byte fixed header, and each of
the four string offsets reaches a zero byte inside the slice. -/
theorem cookie_slice_equiv (data : List Nat) (start size : Nat)
    (hin : start + size ≤ data.length) (h56 : 56 ≤ size)
    (hterm : ∀ o ∈ strOffsets ((data.drop start).take size),
      (0 : Nat) ∈ ((data.drop start).take size).drop o) :
    cookie data start size = cookie ((data.drop start).take size) 0 0 := by
  have hsllen : ((data.drop start).take size).length = size := by
    simp
    omega
  have hread : ∀ k m : Nat, k + m ≤ size →
      (((data.drop start).take size).drop k).take m = (data.drop (start + k)).take m :=
    fun k m hkm => slice_read data start size k m hkm
  have hzstr : ∀ o : Nat, (0 : Nat) ∈ ((data.drop start).take size).drop o →
      zstr data (o + start) = zstr ((data.drop start).take size) o := by
    intro o hmem
    unfold zstr
    have hdr : ((data.drop start).take size).drop o = (data.drop (start + o)).take (size - o) := by
      rw [List.drop_take, List.drop_drop]
    rw [hdr] at hmem ⊢
    rw [takeWhile_take_of_mem _ _ hmem, show o + start = start + o from by omega]
  have hso : strOffsets ((data.drop start).take size) =
      [fromLE ((data.drop (start + 16)).take 4), fromLE ((data.drop (start + 20)).take 4),
       fromLE ((data.drop (start + 24)).take 4), fromLE ((data.drop (start + 28)).take 4)] := by
    unfold strOffsets
    rw [hread 16 4 (by omega), hread 20 4 (by omega), hread 24 4 (by omega),
      hread 28 4 (by omega)]
  rw [cookie_char data start size (by omega), cookie_char _ 0 0 (by omega)]
  simp only [Nat.zero_add, Nat.add_zero, List.drop_zero, hsllen]
  rw [if_neg (show ¬(size = 0) from by omega)]
  simp only [if_true]
  have h04 : ((data.drop start).take size).take 4 = (data.drop start).take 4 := by
    rw [List.take_take, min_eq_left (by omega)]
  rw [h04, hread 16 4 (by omega), hread 20 4 (by omega), hread 24 4 (by omega),
    hread 28 4 (by omega), hread 40 8 (by omega), hread 48 8 (by omega)]
  by_cases hc : fromLE ((data.drop start).take 4) ≠ size
  · rw [if_pos hc, if_pos hc]
  · rw [if_neg hc, if_neg hc]
    rw [hzstr _ (hterm _ (by rw [hso]; simp)), hzstr _ (hterm _ (by rw [hso]; simp)),
      hzstr _ (hterm _ (by rw [hso]; simp)), hzstr _ (hterm _ (by rw [hso]; simp))]

theorem pktOf_eq (D N P V : List Nat) (cre exp : Timestamp) :
    pktOf ⟨D, N, P, V, cre, exp⟩ =
      u_lsize (56 + (D ++ [0]).length + (N ++ [0]).length + (P ++ [0]).length +
          (V ++ [0]).length) ++
        (u_bytes [0] 12 ++ (u_lsize 56 ++ (u_lsize (56 + (D ++ [0]).length) ++
          (u_lsize (56 + (D ++ [0]).length + (N ++ [0]).length) ++
            (u_lsize (56 + (D ++ [0]).length + (N ++ [0]).length + (P ++ [0]).length) ++
              (u_bytes [0] 8 ++ (u_dstamp exp ++ (u_dstamp cre ++
                ((D ++ [0]) ++ ((N ++ [0]) ++ ((P ++ [0]) ++ (V ++ [0])))))))))))) := by
  unfold pktOf
  simp [List.length_append]

theorem pkt_size_field (D N P V : List Nat) (cre exp : Timestamp)
    (hsz : 56 + (D.length + 1) + (N.length + 1) + (P.length + 1) + (V.length + 1) < 2 ^ 32) :
    (pktOf ⟨D, N, P, V, cre, exp⟩).length =
      56 + (D.length + 1) + (N.length + 1) + (P.length + 1) + (V.length + 1) ∧
    fromLE ((pktOf ⟨D, N, P, V, cre, exp⟩).take 4) =
      56 + (D.length + 1) + (N.length + 1) + (P.length + 1) + (V.length + 1) := by
  constructor
  · simp only [pktOf, List.length_append, length_u_lsize, length_u_dstamp,
      u_bytes_zero_12, u_bytes_zero_8, List.length_replicate, List.length_cons,
      List.length_nil]
  · rw [pktOf_eq]
    have ht : (u_lsize (56 + (D ++ [0]).length + (N ++ [0]).length + (P ++ [0]).length +
        (V ++ [0]).length) ++
        (u_bytes [0] 12 ++ (u_lsize 56 ++ (u_lsize (56 + (D ++ [0]).length) ++
          (u_lsize (56 + (D ++ [0]).length + (N ++ [0]).length) ++
            (u_lsize (56 + (D ++ [0]).length + (N ++ [0]).length + (P ++ [0]).length) ++
              (u_bytes [0] 8 ++ (u_dstamp exp ++ (u_dstamp cre ++
                ((D ++ [0]) ++ ((N ++ [0]) ++ ((P ++ [0]) ++ (V ++ [0]))))))))))))).take 4 =
        u_lsize (56 + (D ++ [0]).length + (N ++ [0]).length + (P ++ [0]).length +
          (V ++ [0]).length) :=
      take_append_len _ _ (length_u_lsize _)
    rw [ht, fromLE_u_lsize _ (by simp [List.length_append]; omega)]
    simp [List.length_append]


theorem natLog2_spec (fuel : Nat) : ∀ n : Nat, 1 ≤ n → n < 2 ^ fuel →
    2 ^ natLog2 fuel n ≤ n ∧ n < 2 ^ (natLog2 fuel n + 1) := by
  induction fuel with
  | zero =>
    intro n h1 h2
    rw [pow_zero] at h2
    exact absurd h1 (by omega)
  | succ f ih =>
    intro n h1 h2
    simp only [natLog2]
    by_cases hn : n < 2
    · rw [if_pos hn]
      constructor
      · simpa using h1
      · simpa using hn
    · rw [if_neg hn]
      have hd1 : 1 ≤ n / 2 := by omega
      have hd2 : n / 2 < 2 ^ f := by
        have hp : 2 ^ (f + 1) = 2 ^ f * 2 := pow_succ 2 f
        omega
      obtain ⟨ha, hb⟩ := ih (n / 2) hd1 hd2
      have p1 : 2 ^ (natLog2 f (n / 2) + 1) = 2 ^ natLog2 f (n / 2) * 2 :=
        pow_succ 2 (natLog2 f (n / 2))
      have p2 : 2 ^ (natLog2 f (n / 2) + 1 + 1) = 2 ^ (natLog2 f (n / 2) + 1) * 2 :=
        pow_succ 2 (natLog2 f (n / 2) + 1)
      omega

theorem pow2_ofNat (k : Nat) : pow2 (k : ℤ) = ((2 ^ k : ℕ) : ℚ) := by
  unfold pow2
  rw [if_pos (Int.natCast_nonneg k)]
  simp

theorem pow2_neg_ofNat (k : Nat) : pow2 (-(k : ℤ)) = 1 / ((2 ^ k : ℕ) : ℚ) := by
  unfold pow2
  by_cases hk : k = 0
  · subst hk
    norm_num
  · rw [if_neg (by omega)]
    simp

theorem findExp_natCast (n : Nat) (h1 : 1 ≤ n) (h2 : n < 2 ^ 2000) :
    findExp (n : ℚ) = (natLog2 2000 n : ℤ) := by
  obtain ⟨ha, hb⟩ := natLog2_spec 2000 n h1 h2
  have hden1 : natLog2 2000 1 = 0 := by decide
  unfold findExp
  rw [Rat.num_natCast, Rat.den_natCast, Int.natAbs_ofNat, hden1]
  simp only [Nat.cast_zero, sub_zero]
  rw [if_neg (not_lt.mpr (by rw [pow2_ofNat]; exact_mod_cast ha))]
  rw [if_neg (not_le.mpr (by
    rw [show (natLog2 2000 n : ℤ) + 1 = ((natLog2 2000 n + 1 : ℕ) : ℤ) from by push_cast; ring,
      pow2_ofNat]
    exact_mod_cast hb))]

theorem roundMag_natCast (n : Nat) (h1 : 1 ≤ n) (h2 : n < 2 ^ 53) :
    roundMag (n : ℚ) =
      (natLog2 2000 n + 1023) * 2 ^ 52 + (n * 2 ^ (52 - natLog2 2000 n) - 2 ^ 52) := by
  have h2' : n < 2 ^ 2000 := lt_of_lt_of_le h2 (Nat.pow_le_pow_right (by norm_num) (by norm_num))
  obtain ⟨ha, hb⟩ := natLog2_spec 2000 n h1 h2'
  have hL52 : natLog2 2000 n ≤ 52 := by
    by_contra hc
    have hcc : 2 ^ 53 ≤ 2 ^ natLog2 2000 n := Nat.pow_le_pow_right (by norm_num) (by omega)
    omega
  have hk1 : 2 ^ 52 ≤ n * 2 ^ (52 - natLog2 2000 n) := by
    calc 2 ^ 52 = 2 ^ natLog2 2000 n * 2 ^ (52 - natLog2 2000 n) := by
          rw [← pow_add]
          congr 1
          omega
    _ ≤ n * 2 ^ (52 - natLog2 2000 n) := Nat.mul_le_mul_right _ ha
  have hk2 : n * 2 ^ (52 - natLog2 2000 n) < 2 ^ 53 := by
    calc n * 2 ^ (52 - natLog2 2000 n) < 2 ^ (natLog2 2000 n + 1) * 2 ^ (52 - natLog2 2000 n) :=
          (Nat.mul_lt_mul_right (Nat.pos_pow_of_pos _ (by norm_num))).mpr hb
    _ = 2 ^ 53 := by
          rw [← pow_add]
          congr 1
          omega
  unfold roundMag
  dsimp only
  rw [findExp_natCast n h1 h2']
  rw [show max ((natLog2 2000 n : ℕ) : ℤ) (-1022) = ((natLog2 2000 n : ℕ) : ℤ) from by omega]
  rw [show (52 : ℤ) - ((natLog2 2000 n : ℕ) : ℤ) = ((52 - natLog2 2000 n : ℕ) : ℤ) from by omega]
  rw [pow2_ofNat]
  rw [show (n : ℚ) * ((2 ^ (52 - natLog2 2000 n) : ℕ) : ℚ) =
      ((n * 2 ^ (52 - natLog2 2000 n) : ℕ) : ℚ) from by push_cast; ring]
  rw [Int.floor_natCast]
  rw [show ((n * 2 ^ (52 - natLog2 2000 n) : ℕ) : ℚ) -
      (((n * 2 ^ (52 - natLog2 2000 n) : ℕ) : ℤ) : ℚ) = 0 from by push_cast; ring]
  rw [if_pos (by norm_num : (0 : ℚ) < 1 / 2)]
  rw [if_neg (not_lt.mpr (by exact_mod_cast hk1))]
  rw [if_pos (by exact_mod_cast hk2)]
  rw [if_neg (show ¬(1023 : ℤ) < ((natLog2 2000 n : ℕ) : ℤ) from by omega)]
  rw [show (((natLog2 2000 n : ℕ) : ℤ) + 1023).toNat = natLog2 2000 n + 1023 from by omega]
  omega

theorem dblVal_exact_pattern (L r : Nat) (hL2 : L ≤ 52) (hr : r < 2 ^ 52) :
    dblVal ((L + 1023) * 2 ^ 52 + r) = ((2 ^ 52 + r : ℕ) : ℚ) * (1 / ((2 ^ (52 - L) : ℕ) : ℚ)) ∧
      isFiniteDbl ((L + 1023) * 2 ^ 52 + r) = true ∧
      (L + 1023) * 2 ^ 52 + r < 2 ^ 63 := by
  have hlt : (L + 1023) * 2 ^ 52 + r < 2 ^ 63 := by
    have : (L + 1023) * 2 ^ 52 ≤ 1075 * 2 ^ 52 := Nat.mul_le_mul_right _ (by omega)
    omega
  have hs : ((L + 1023) * 2 ^ 52 + r) / 2 ^ 63 = 0 := by omega
  have hE : ((L + 1023) * 2 ^ 52 + r) / 2 ^ 52 % 2 ^ 11 = L + 1023 := by omega
  have hm : ((L + 1023) * 2 ^ 52 + r) % 2 ^ 52 = r := by omega
  refine ⟨?_, ?_, hlt⟩
  · unfold dblVal
    dsimp only
    rw [hs, hE, hm]
    rw [if_neg (by omega : ¬L + 1023 = 0)]
    rw [if_neg (by omega : ¬(0 : ℕ) = 1)]
    rw [show ((L + 1023 : ℕ) : ℤ) - 1075 = -((52 - L : ℕ) : ℤ) from by omega]
    rw [pow2_neg_ofNat]
  · unfold isFiniteDbl
    rw [hE]
    simp only [bne_iff_ne, ne_eq, decide_eq_true_eq]
    omega

theorem dblVal_neg_pattern (mag : Nat) (h : mag < 2 ^ 63) :
    dblVal (2 ^ 63 + mag) = -dblVal mag ∧ isFiniteDbl (2 ^ 63 + mag) = isFiniteDbl mag := by
  have hs1 : (2 ^ 63 + mag) / 2 ^ 63 = 1 := by omega
  have hs0 : mag / 2 ^ 63 = 0 := by omega
  have hE : (2 ^ 63 + mag) / 2 ^ 52 % 2 ^ 11 = mag / 2 ^ 52 % 2 ^ 11 := by omega
  have hm : (2 ^ 63 + mag) % 2 ^ 52 = mag % 2 ^ 52 := by omega
  constructor
  · unfold dblVal
    dsimp only
    rw [hs1, hs0, hE, hm]
    rw [if_pos rfl, if_neg (by omega : ¬(0 : ℕ) = 1)]
  · unfold isFiniteDbl
    rw [hE]

theorem roundMag_nat_val (n : Nat) (h1 : 1 ≤ n) (h2 : n < 2 ^ 53) :
    dblVal (roundMag (n : ℚ)) = (n : ℚ) ∧ isFiniteDbl (roundMag (n : ℚ)) = true ∧
      roundMag (n : ℚ) < 2 ^ 63 := by
  have h2' : n < 2 ^ 2000 := lt_of_lt_of_le h2 (Nat.pow_le_pow_right (by norm_num) (by norm_num))
  obtain ⟨ha, hb⟩ := natLog2_spec 2000 n h1 h2'
  have hL52 : natLog2 2000 n ≤ 52 := by
    by_contra hc
    have hcc : 2 ^ 53 ≤ 2 ^ natLog2 2000 n := Nat.pow_le_pow_right (by norm_num) (by omega)
    omega
  have hk1 : 2 ^ 52 ≤ n * 2 ^ (52 - natLog2 2000 n) := by
    calc 2 ^ 52 = 2 ^ natLog2 2000 n * 2 ^ (52 - natLog2 2000 n) := by
          rw [← pow_add]
          congr 1
          omega
    _ ≤ n * 2 ^ (52 - natLog2 2000 n) := Nat.mul_le_mul_right _ ha
  have hk2 : n * 2 ^ (52 - natLog2 2000 n) < 2 ^ 53 := by
    calc n * 2 ^ (52 - natLog2 2000 n) < 2 ^ (natLog2 2000 n + 1) * 2 ^ (52 - natLog2 2000 n) :=
          (Nat.mul_lt_mul_right (Nat.pos_pow_of_pos _ (by norm_num))).mpr hb
    _ = 2 ^ 53 := by
          rw [← pow_add]
          congr 1
          omega
  rw [roundMag_natCast n h1 h2]
  obtain ⟨hv, hf, hlt⟩ := dblVal_exact_pattern (natLog2 2000 n)
    (n * 2 ^ (52 - natLog2 2000 n) - 2 ^ 52) hL52 (by omega)
  refine ⟨?_, hf, hlt⟩
  rw [hv]
  rw [show (2 ^ 52 + (n * 2 ^ (52 - natLog2 2000 n) - 2 ^ 52) : ℕ) =
      n * 2 ^ (52 - natLog2 2000 n) from by omega]
  push_cast
  rw [mul_one_div]
  rw [mul_div_assoc]
  rw [div_self (by positivity : ((2 : ℚ) ^ (52 - natLog2 2000 n)) ≠ 0)]
  rw [mul_one]

theorem roundDbl_int (z : ℤ) (h : z.natAbs < 2 ^ 53) :
    isFiniteDbl (roundDbl (z : ℚ)) = true ∧ dblVal (roundDbl (z : ℚ)) = (z : ℚ) ∧
      roundDbl (z : ℚ) < 2 ^ 64 := by
  by_cases h0 : z = 0
  · subst h0
    refine ⟨by decide, by decide, by decide⟩
  · have habs : |(z : ℚ)| = ((z.natAbs : ℕ) : ℚ) := by rw [Int.cast_natAbs, Int.cast_abs]
    have h1 : 1 ≤ z.natAbs := by omega
    obtain ⟨hv, hf, hb⟩ := roundMag_nat_val z.natAbs h1 h
    unfold roundDbl
    rw [if_neg (Int.cast_ne_zero.mpr h0)]
    by_cases hneg : z < 0
    · rw [if_pos (by exact_mod_cast hneg)]
      obtain ⟨hnv, hnf⟩ := dblVal_neg_pattern (roundMag |(z : ℚ)|) (by rw [habs]; exact hb)
      refine ⟨by rw [hnf, habs]; exact hf, ?_, by rw [habs]; omega⟩
      rw [hnv, habs, hv]
      rw [← habs]
      rw [abs_of_neg (by exact_mod_cast hneg)]
      ring
    · rw [if_neg (by exact_mod_cast hneg)]
      rw [zero_add, habs]
      refine ⟨hf, ?_, by omega⟩
      rw [hv, ← habs]
      exact abs_of_nonneg (by exact_mod_cast not_lt.mp hneg)

theorem mkDtime_roundDbl_int (s : ℤ) (hs : s.natAbs ≤ 2 ^ 35) :
    mkDtime (roundDbl ((s - 978336000 : ℤ) : ℚ)) = .ok (.dt (s * 1000000)) := by
  have hw : (s - 978336000 : ℤ).natAbs < 2 ^ 53 := by omega
  have hs53 : s.natAbs < 2 ^ 53 := by omega
  obtain ⟨hf1, hv1, _⟩ := roundDbl_int _ hw
  unfold mkDtime
  rw [hf1]
  rw [if_neg (by decide : ¬true = false)]
  dsimp only
  rw [hv1]
  rw [show ((s - 978336000 : ℤ) : ℚ) + mac_abs_epoch = ((s : ℤ) : ℚ) from by
    unfold mac_abs_epoch
    push_cast
    ring]
  obtain ⟨hf2, hv2, _⟩ := roundDbl_int s hs53
  rw [hv2]
  rw [if_neg (by
    rw [not_or, not_lt, not_le]
    constructor
    · show dtMinEpoch ≤ ((s : ℤ) : ℚ)
      rw [show dtMinEpoch = ((-62135596800 : ℤ) : ℚ) from by unfold dtMinEpoch; push_cast; ring]
      exact_mod_cast (by omega : (-62135596800 : ℤ) ≤ s)
    · show ((s : ℤ) : ℚ) < dtMaxEpoch
      rw [show dtMaxEpoch = ((253402300800 : ℤ) : ℚ) from by unfold dtMaxEpoch; push_cast; ring]
      exact_mod_cast (by omega : s < 253402300800))]
  rw [show ((s : ℤ) : ℚ) * 1000000 + 1 / 2 = ((s * 1000000 : ℤ) : ℚ) + 1 / 2 from by
    push_cast
    ring]
  rw [Int.floor_int_add]
  rw [show ⌊(1 : ℚ) / 2⌋ = 0 from by decide]
  rw [add_zero]

theorem tsPack_num_int (z : ℤ) :
    tsPack (.num (z : ℚ)) = roundDbl ((z - 978336000 : ℤ) : ℚ) := by
  show roundDbl ((z : ℚ) - mac_abs_epoch) = _
  rw [show (z : ℚ) - mac_abs_epoch = ((z - 978336000 : ℤ) : ℚ) from by
    unfold mac_abs_epoch
    push_cast
    ring]

theorem tsPack_dt_int (s : ℤ) :
    tsPack (.dt (s * 1000000)) = roundDbl ((s - 978336000 : ℤ) : ℚ) := by
  show roundDbl ((Int.fdiv (s * 1000000) 1000000 : ℚ) - mac_abs_epoch) = _
  rw [Int.mul_fdiv_cancel s (by norm_num)]
  rw [show (s : ℚ) - mac_abs_epoch = ((s - 978336000 : ℤ) : ℚ) from by
    unfold mac_abs_epoch
    push_cast
    ring]

theorem mkDtime_tsPack_num (z : ℤ) (h : z.natAbs ≤ 2 ^ 35) :
    mkDtime (fromLE (u_dstamp (.num (z : ℚ)))) = .ok (.dt (z * 1000000)) := by
  rw [fromLE_u_dstamp _ (by
    rw [tsPack_num_int]
    exact (roundDbl_int _ (by omega)).2.2)]
  rw [tsPack_num_int]
  exact mkDtime_roundDbl_int z h

theorem mkDtime_tsPack_dt (s : ℤ) (h : s.natAbs ≤ 2 ^ 35) :
    mkDtime (fromLE (u_dstamp (.dt (s * 1000000)))) = .ok (.dt (s * 1000000)) := by
  rw [fromLE_u_dstamp _ (by
    rw [tsPack_dt_int]
    exact (roundDbl_int _ (by omega)).2.2)]
  rw [tsPack_dt_int]
  exact mkDtime_roundDbl_int s h

theorem dstamp_u_dstamp_num (z : ℤ) (h : z.natAbs ≤ 2 ^ 35) :
    dstamp (u_dstamp (.num (z : ℚ))) 0 = .ok (.dt (z * 1000000), 8) := by
  have hok := dstamp_ok (u_dstamp (.num (z : ℚ))) 0 (.dt (z * 1000000))
    (by rw [length_u_dstamp])
    (by
      simp only [List.drop_zero]
      rw [show (u_dstamp (Timestamp.num (z : ℚ))).take 8 = u_dstamp (.num (z : ℚ)) from by
        rw [show (8 : Nat) = (u_dstamp (Timestamp.num (z : ℚ))).length from
          (length_u_dstamp _).symm]
        exact List.take_length _]
      exact mkDtime_tsPack_num z h)
  rw [hok]

end Lemmas

/-! The ten claims. -/

/-- Counterexample for C1 as stated: the record with Domain "a" and a
created timestamp of 0.5 seconds after the Unix epoch (a `datetime` with
`microsecond = 500000`) encodes successfully, but decoding the packet
yields the record with created timestamp 0: `time.mktime(dt.timetuple())`
drops the fractional second on encode, so decode-after-encode is not the
identity on all representable records. -/
theorem C1_fractional_second_counterexample :
    u_cookie ⟨[97], [], [], [], .dt 500000, .dt 0⟩ =
        .ok (pktOf ⟨[97], [], [], [], .dt 500000, .dt 0⟩) ∧
      cookie (pktOf ⟨[97], [], [], [], .dt 500000, .dt 0⟩) 0 0 =
        .ok ⟨[97], [], [], [], .dt 0, .dt 0⟩ ∧
      (⟨[97], [], [], [], Timestamp.dt 0, .dt 0⟩ : CookieRecord) ≠
        ⟨[97], [], [], [], .dt 500000, .dt 0⟩ := by
  refine ⟨?_, ?_, ?_⟩ <;> decide

/-- Claim C1 (amended): for every `CookieRecord` whose four string fields
contain no zero byte, whose total encoded size fits the 32-bit size field,
and whose two timestamps are `datetime`s on a whole second within ±2^35
seconds of the Unix epoch (the range where the stored double and the
`fromtimestamp`/`mktime` conversions are exact; fractional seconds are
dropped by `mktime(dt.timetuple())`, and out-of-range values raise),
decoding the bytes produced by encoding it yields a record equal to it in
all six fields. -/
theorem C1_record_roundtrip (r : CookieRecord)
    (hD : (0 : Nat) ∉ r.Domain) (hN : (0 : Nat) ∉ r.Name)
    (hP : (0 : Nat) ∉ r.Path) (hV : (0 : Nat) ∉ r.Value)
    (hcre : ∃ s : ℤ, s.natAbs ≤ 2 ^ 35 ∧ r.Created = .dt (s * 1000000))
    (hexp : ∃ s : ℤ, s.natAbs ≤ 2 ^ 35 ∧ r.Expires = .dt (s * 1000000))
    (hsz : 56 + (r.Domain.length + 1) + (r.Name.length + 1) + (r.Path.length + 1) +
      (r.Value.length + 1) < 2 ^ 32) :
    ∃ pkt, u_cookie r = .ok pkt ∧ cookie pkt 0 0 = .ok r := by
  obtain ⟨D, N, P, V, cre, exp⟩ := r
  obtain ⟨s1, hs1, hc⟩ := hcre
  obtain ⟨s2, hs2, he⟩ := hexp
  dsimp only at hc he hD hN hP hV hsz
  subst hc he
  exact ⟨_, u_cookie_ok _ hD hN hP hV,
    cookie_decode_encode D N P V _ _ hD hN hP hV (mkDtime_tsPack_dt s1 hs1)
      (mkDtime_tsPack_dt s2 hs2) hsz⟩

/-- Witness for C1 (amended): the record ("ex", "id", "/", "123") with
created time 3 s and expiry 7 s after the Unix epoch round-trips. -/
theorem C1_record_roundtrip_witness :
    ((0 : Nat) ∉ ([101, 120] : List Nat) ∧
      (∃ s : ℤ, s.natAbs ≤ 2 ^ 35 ∧
        (⟨[101, 120], [105, 100], [47], [49, 50, 51], .dt (3 * 1000000),
          .dt (7 * 1000000)⟩ : CookieRecord).Created = .dt (s * 1000000))) ∧
    (∃ pkt,
      u_cookie ⟨[101, 120], [105, 100], [47], [49, 50, 51], .dt (3 * 1000000),
        .dt (7 * 1000000)⟩ = .ok pkt ∧
      cookie pkt 0 0 = .ok ⟨[101, 120], [105, 100], [47], [49, 50, 51],
        .dt (3 * 1000000), .dt (7 * 1000000)⟩) :=
  ⟨⟨by decide, ⟨3, by decide, by decide⟩⟩,
    C1_record_roundtrip _ (by decide) (by decide) (by decide) (by decide)
      ⟨3, by decide, by decide⟩ ⟨7, by decide, by decide⟩ (by decide)⟩

/-- Counterexample for C2 as stated: on the buffer `[0, 1, 0, 0]`, whose
little-endian 32-bit value at offset 0 is 256 = 0x00000100, page decode
nevertheless fails with `pageMagicMismatch`: the code reads the marker
with `bsize`, i.e. in network byte order. -/
theorem C2_little_endian_counterexample :
    ¬((page [0, 1, 0, 0] 0 0 = .error Err.pageMagicMismatch) ↔
      fromLE ((([0, 1, 0, 0] : List Nat).drop 0).take 4) ≠ PAGE_MAGIC) := by
  decide

/-- Claim C2 (amended): page decode interprets the 4 bytes at offset
`[0,4)` from the page start in network byte order (big-endian, via
`bsize`), and fails with `pageMagicMismatch` iff that big-endian value
differs from `PAGE_MAGIC` (the stored byte sequence being
`00 00 01 00`). -/
theorem C2_page_magic_bigendian (data : List Nat) (pos size : Nat)
    (h4 : pos + 4 ≤ data.length) :
    page data pos size = .error Err.pageMagicMismatch ↔
      fromBE ((data.drop pos).take 4) ≠ PAGE_MAGIC :=
  page_pageMagic_iff data pos size h4

/-- Witness for C2 (amended): a buffer with a wrong marker is rejected
with `pageMagicMismatch`. -/
theorem C2_page_magic_bigendian_witness :
    (0 + 4 ≤ ([9, 9, 9, 9] : List Nat).length) ∧
    page [9, 9, 9, 9] 0 0 = .error Err.pageMagicMismatch :=
  ⟨by decide, (C2_page_magic_bigendian [9, 9, 9, 9] 0 0 (by decide)).mpr (by decide)⟩

/-- Claim C3 (code bug): on a page whose offset-table entry after the `n`
record offsets is nonzero, the decode fails with the modelled Python
`NameError` — the sentinel branch of `phead` evaluates an error message
that interpolates the undefined name `ck` — and not with the
`sentinelViolation` error the source intends. -/
theorem C3_sentinel_raises_nameError :
    page [0, 0, 1, 0, 0, 0, 0, 0, 1, 0, 0, 0] 0 12 = .error Err.nameErrorUndefined ∧
      Err.nameErrorUndefined ≠ Err.sentinelViolation := by
  decide

/-- Counterexample for C4 as stated: the numeric timestamp 2^100 (a finite,
exactly representable double) encodes to the stored pattern for 2^100, but
decoding fails with the modelled `ValueError`: after the epoch shift the
value exceeds `datetime`'s year range, and
`datetime.datetime.fromtimestamp` raises instead of returning the value.
The byte layer is lossless only where `fromtimestamp` accepts the
value. -/
theorem C4_out_of_range_counterexample :
    dstamp (u_dstamp (Timestamp.num ((2 ^ 100 : ℕ) : ℚ))) 0 =
      .error Err.valueErrorTimestamp := by
  decide

/-- Claim C4 (amended): for a whole-second numeric timestamp within ±2^35
seconds of the Unix epoch, decoding the 8 bytes produced by encoding it
returns the `datetime` at exactly that instant (`dstamp` after `u_dstamp`
loses nothing: the double is exact and `fromtimestamp` neither raises nor
rounds), and the conversion between the format's native timestamps and
Unix time is exact addition and subtraction of 978,336,000
(`dstampShift` after `u_dstampShift` is the identity on exact rationals). -/
theorem C4_timestamp_roundtrip (z : ℤ) (q : ℚ) (h : z.natAbs ≤ 2 ^ 35) :
    dstamp (u_dstamp (.num (z : ℚ))) 0 = .ok (.dt (z * 1000000), 8) ∧
      dstampShift (u_dstampShift q) = q := by
  refine ⟨dstamp_u_dstamp_num z h, ?_⟩
  unfold dstampShift u_dstampShift
  ring

/-- Witness for C4 (amended) at `z = 123456` and `q = 5`. -/
theorem C4_timestamp_roundtrip_witness :
    ((123456 : ℤ).natAbs ≤ 2 ^ 35) ∧
    (dstamp (u_dstamp (.num ((123456 : ℤ) : ℚ))) 0 = .ok (.dt (123456 * 1000000), 8) ∧
      dstampShift (u_dstampShift 5) = 5) :=
  ⟨by decide, C4_timestamp_roundtrip 123456 5 (by decide)⟩

/-- Claim C5: a well-formed page declaring `k` records — its offsets, in
any order, have the header end as smallest element (when `k > 0`), lie
within the page, and the page size covers exactly the content — decodes to
exactly `k` `(start, length)` ranges partitioning `[headerEnd, pageEnd)`
with no gaps and no overlaps, the offsets being sorted before range
derivation. -/
theorem C5_page_partition (os content : List Nat)
    (hs32 : 12 + 4 * os.length + content.length < 2 ^ 32)
    (hle : ∀ o ∈ os, o ≤ 12 + 4 * os.length + content.length)
    (hnil : os = [] → content = [])
    (hmin : os ≠ [] → (12 + 4 * os.length) ∈ os ∧ ∀ o ∈ os, 12 + 4 * os.length ≤ o) :
    ∃ rs, page (pageBytes os content) 0 (12 + 4 * os.length + content.length) =
        .ok (rs, 12 + 4 * os.length) ∧
      rs.length = os.length ∧
      tiles rs (12 + 4 * os.length) (12 + 4 * os.length + content.length) :=
  page_pageBytes_partition os content hs32 hle hnil hmin

/-- Witness for C5: a page with two records whose offsets appear out of
order (24 before 20) still decodes to two ranges tiling `[20, 28)`. -/
theorem C5_page_partition_witness :
    (∀ o ∈ ([24, 20] : List Nat), o ≤ 28) ∧
    (∃ rs, page (pageBytes [24, 20] [1, 2, 3, 4, 5, 6, 7, 8]) 0 28 = .ok (rs, 20) ∧
      rs.length = 2 ∧ tiles rs 20 28) :=
  ⟨by decide, C5_page_partition [24, 20] [1, 2, 3, 4, 5, 6, 7, 8] (by decide) (by decide)
    (by decide) (by decide)⟩

/-- Counterexample for C6 as stated: with a nonzero start offset, decoding
with size 0 does not behave like decoding with the remaining length
`len(data) - start`; the code substitutes the full buffer length
`len(data)` instead. -/
theorem C6_remaining_length_counterexample :
    cookie c6buf 1 0 ≠ cookie c6buf 1 (c6buf.length - 1) := by
  decide

/-- Claim C6 (amended): when record decode or page decode is called with
expected size 0, the size used in its place is the TOTAL buffer length
`len(data)` (not the remaining length from the start offset): for every
buffer and start offset the call with size 0 behaves exactly like the call
with `len(data)`. -/
theorem C6_size_default_whole_buffer (data : List Nat) (pos : Nat) :
    cookie data pos 0 = cookie data pos data.length ∧
    page data pos 0 = page data pos data.length := by
  constructor
  · unfold cookie
    simp only [show (if (0 : Nat) = 0 then data.length else 0) = data.length from by simp,
      show (if data.length = 0 then data.length else data.length) = data.length from
        ite_self _, if_true]
  · unfold page
    simp only [show (if (0 : Nat) = 0 then data.length else 0) = data.length from by simp,
      show (if data.length = 0 then data.length else data.length) = data.length from
        ite_self _, if_true]

/-- Claim C7: for every buffer and nonzero supplied size whose size field
is readable, record decode fails with `sizeMismatch` exactly when the
little-endian field at record offset `[0,4)` differs from the supplied
size; when they are equal the size check passes and no `sizeMismatch` can
arise later. -/
theorem C7_sizeMismatch_exact (data : List Nat) (pos size : Nat)
    (hsz : size ≠ 0) (h4 : pos + 4 ≤ data.length) :
    cookie data pos size = .error Err.sizeMismatch ↔
      fromLE ((data.drop pos).take 4) ≠ size := by
  rw [cookie_sizeMismatch_iff, if_neg hsz]
  simp [h4]

/-- Witness for C7: a record declaring size 5 decoded with supplied size 7
fails with `sizeMismatch`. -/
theorem C7_sizeMismatch_exact_witness :
    ((7 : Nat) ≠ 0 ∧ 0 + 4 ≤ ([5, 0, 0, 0] : List Nat).length) ∧
    cookie [5, 0, 0, 0] 0 7 = .error Err.sizeMismatch :=
  ⟨by decide, (C7_sizeMismatch_exact [5, 0, 0, 0] 0 7 (by decide) (by decide)).mpr (by decide)⟩

/-- Claim C8: once the magic matches, the header parses and the checksum
bytes are available, container decode reads the final 8 bytes after the
last declared page as the opaque checksum and fails with `incompleteParse`
iff the cursor does not land exactly at the buffer's end; in particular
trailing bytes beyond the checksum are rejected. -/
theorem C8_incompleteParse_iff (data : List Nat) (vs : List Nat) (p0 : Nat)
    (hmagic : data.take 4 = FILE_MAGIC)
    (hhead : head data 4 = .ok (vs, p0))
    (hck : p0 + vs.sum + 8 ≤ data.length) :
    (cfile data 0 = .error Err.incompleteParse ↔ p0 + vs.sum + 8 ≠ data.length) ∧
    (p0 + vs.sum + 8 = data.length →
      cfile data 0 =
        .ok (((assignPages p0 vs).1, (data.drop (p0 + vs.sum)).take 8), data.length)) :=
  cfile_char data vs p0 hmagic hhead hck

/-- Witness for C8: a zero-page file with one byte after its checksum is
rejected with `incompleteParse`. -/
theorem C8_incompleteParse_iff_witness :
    (([99, 111, 111, 107, 0, 0, 0, 0, 1, 2, 3, 4, 5, 6, 7, 8, 9] : List Nat).take 4 =
        FILE_MAGIC ∧
      head [99, 111, 111, 107, 0, 0, 0, 0, 1, 2, 3, 4, 5, 6, 7, 8, 9] 4 = .ok ([], 8)) ∧
    cfile [99, 111, 111, 107, 0, 0, 0, 0, 1, 2, 3, 4, 5, 6, 7, 8, 9] 0 =
      .error Err.incompleteParse :=
  ⟨⟨by decide, by decide⟩,
    (C8_incompleteParse_iff _ [] 8 (by decide) (by decide) (by decide)).1.mpr (by decide)⟩

/-- Counterexample for C9 as stated: on `c9buf` with the in-bounds range
(0, 60), in-place decode reads the Domain string past the record's end
(yielding "abcde"), while standalone decode of the extracted slice stops
at the slice end (yielding "abcd"); the two records differ. -/
theorem C9_slice_counterexample :
    cookie c9buf 0 60 ≠ cookie ((c9buf.drop 0).take 60) 0 0 := by
  decide

/-- Claim C9 (amended): in-place record decode agrees with standalone
decode of the extracted slice for every in-bounds `(start, size)` range
that covers the 56-byte fixed header and whose four string offsets each
reach a zero byte inside the slice. -/
theorem C9_slice_equivalence (data : List Nat) (start size : Nat)
    (hin : start + size ≤ data.length) (h56 : 56 ≤ size)
    (hterm : ∀ o ∈ strOffsets ((data.drop start).take size),
      (0 : Nat) ∈ ((data.drop start).take size).drop o) :
    cookie data start size = cookie ((data.drop start).take size) 0 0 :=
  cookie_slice_equiv data start size hin h56 hterm

/-- Witness for C9 (amended): a well-formed record embedded at offset 1 of
a larger buffer decodes identically in place and as a slice. -/
theorem C9_slice_equivalence_witness :
    (1 + 61 ≤ c9wit.length ∧ (56 : Nat) ≤ 61 ∧
      (∀ o ∈ strOffsets ((c9wit.drop 1).take 61),
        (0 : Nat) ∈ ((c9wit.drop 1).take 61).drop o)) ∧
    cookie c9wit 1 61 = cookie ((c9wit.drop 1).take 61) 0 0 :=
  ⟨⟨by decide, by decide, by decide⟩,
    C9_slice_equivalence c9wit 1 61 (by decide) (by decide) (by decide)⟩

/-- Claim C10: for every record with NUL-free strings whose total encoded
size fits the 32-bit field, the encoded packet's byte length equals the
value stored in its leading little-endian size field, namely 56 plus the
sum of the four string lengths each counted with its one-byte
terminator. -/
theorem C10_size_field_invariant (r : CookieRecord)
    (hD : (0 : Nat) ∉ r.Domain) (hN : (0 : Nat) ∉ r.Name)
    (hP : (0 : Nat) ∉ r.Path) (hV : (0 : Nat) ∉ r.Value)
    (hsz : 56 + (r.Domain.length + 1) + (r.Name.length + 1) + (r.Path.length + 1) +
      (r.Value.length + 1) < 2 ^ 32) :
    ∃ pkt, u_cookie r = .ok pkt ∧
      pkt.length = 56 + (r.Domain.length + 1) + (r.Name.length + 1) +
        (r.Path.length + 1) + (r.Value.length + 1) ∧
      fromLE (pkt.take 4) = 56 + (r.Domain.length + 1) + (r.Name.length + 1) +
        (r.Path.length + 1) + (r.Value.length + 1) := by
  obtain ⟨D, N, P, V, cre, exp⟩ := r
  exact ⟨pktOf ⟨D, N, P, V, cre, exp⟩, u_cookie_ok _ hD hN hP hV,
    (pkt_size_field D N P V cre exp hsz).1, (pkt_size_field D N P V cre exp hsz).2⟩

/-- Witness for C10 at a concrete record. -/
theorem C10_size_field_invariant_witness :
    ((0 : Nat) ∉ ([104, 105] : List Nat)) ∧
    (∃ pkt, u_cookie ⟨[104, 105], [110], [47, 112], [118, 118, 118], .dt 1000000, .dt 2000000⟩ = .ok pkt ∧
      pkt.length = 56 + (2 + 1) + (1 + 1) + (2 + 1) + (3 + 1) ∧
      fromLE (pkt.take 4) = 56 + (2 + 1) + (1 + 1) + (2 + 1) + (3 + 1)) :=
  ⟨by decide, C10_size_field_invariant _ (by decide) (by decide) (by decide) (by decide)
    (by decide)⟩
